import Mathlib

/-! Verification of the `docgen` documentation generator.

A shallow embedding of `cmd/docgen/docgen.go`: the annotation merge
(`Doc.ApplyToSchema`), the two dotted-path resolvers (`getValueFromStruct`,
`getStructSubPath`), `hasRequired`, the schema walk `WriteReferenceDoc`, the
rendering of an entry (`formatStraight`, `linefmt`, `writeList`) and the output
sink `multiwriter`; and of the scope setter of `DigdiratorStatus` in
`pkg/apis/nais.io/v1/digdirator_types.go`.

Conventions of the embedding.

* A Go `string` is a list of characters (`Str`).  All string operations the
  program uses (splitting on `.`, trimming a set of ASCII characters,
  byte-wise comparison) act the same on characters as on UTF-8 bytes.
* A call that can return an `error` or abort with a runtime panic returns a
  `Result`: `ok`, `error` (the returned Go error) or `panic`.
* Library functions whose text is not part of the repository
  (`encoding/json`, `fmt.Sprintf("%v", float64)`) are parameters.
-/

namespace Docgen

/-! ## Strings -/

/-- A Go string. -/
abbrev Str := List Char

/-- The outcome of a Go call: a value, a returned `error`, or a runtime panic. -/
inductive Result (α : Type) where
  | ok (a : α)
  | error (msg : String)
  | panic (msg : String)
  deriving Repr, DecidableEq

/-- The pieces of `s` between the occurrences of `sep`, with the piece being
read (`cur`, reversed) carried along. -/
def splitAux (sep : Char) : Str → Str → List Str
  | [], cur => [cur.reverse]
  | c :: cs, cur =>
    if c = sep then cur.reverse :: splitAux sep cs [] else splitAux sep cs (c :: cur)

/-- Go `strings.Split(s, ".")`: always at least one piece; `""` gives `[""]`. -/
def splitDots (s : Str) : List Str := splitAux '.' s []

/-- Go `strings.TrimLeft(s, cutset)`: drop leading characters that are in `cutset`. -/
def TrimLeft (s cutset : Str) : Str := s.dropWhile (fun c => decide (c ∈ cutset))

/-- Go `strings.TrimRight(s, cutset)`: drop trailing characters that are in `cutset`. -/
def TrimRight (s cutset : Str) : Str :=
  (s.reverse.dropWhile (fun c => decide (c ∈ cutset))).reverse

/-- Go `strings.Trim(s, cutset)`: drop leading and trailing characters that are in `cutset`. -/
def Trim (s cutset : Str) : Str := TrimRight (TrimLeft s cutset) cutset

/-- Go string comparison `a < b`: lexicographic on the code units. -/
def strLt : Str → Str → Bool
  | _, [] => false
  | [], _ :: _ => true
  | a :: as, b :: bs => a.toNat < b.toNat || (a.toNat = b.toNat && strLt as bs)

/-- Insert a string into an ascending list, before the first element above it. -/
def insertSorted (x : Str) : List Str → List Str
  | [] => [x]
  | y :: ys => if strLt y x then y :: insertSorted x ys else x :: y :: ys

/-- Go `sort.Strings`: the list in ascending order. -/
def sortStrings : List Str → List Str
  | [] => []
  | x :: xs => insertSorted x (sortStrings xs)

/-! ## Value trees -/

/-- A finite `float64`: `(-1)^neg * mant * 2^exp`.  The resolvers never look inside it. -/
structure Float64 where
  neg : Bool
  mant : Nat
  exp : Int
  deriving Repr, DecidableEq

/-- What an `interface{}` decoded from JSON holds, as seen through `reflect`:
`null` is the nil interface (`reflect.Value` of kind `Invalid`), `map` is a
`map[string]interface{}` given by its entries, `seq` a `[]interface{}`.
The kind `Int` never comes out of the JSON decoder but both resolvers accept it. -/
inductive Value where
  | null
  | str (s : Str)
  | int (n : Int)
  | bool (b : Bool)
  | float (f : Float64)
  | seq (xs : List Value)
  | map (entries : List (Str × Value))
  deriving Repr

mutual
/-- Equality test on values. -/
def Value.beq : Value → Value → Bool
  | .null, .null => true
  | .str a, .str b => a == b
  | .int a, .int b => a == b
  | .bool a, .bool b => a == b
  | .float a, .float b => a == b
  | .seq a, .seq b => Value.beqList a b
  | .map a, .map b => Value.beqEntries a b
  | _, _ => false
/-- Equality test on sequences of values. -/
def Value.beqList : List Value → List Value → Bool
  | [], [] => true
  | x :: xs, y :: ys => Value.beq x y && Value.beqList xs ys
  | _, _ => false
/-- Equality test on the entries of mappings. -/
def Value.beqEntries : List (Str × Value) → List (Str × Value) → Bool
  | [], [] => true
  | (k, x) :: xs, (l, y) :: ys => k == l && Value.beq x y && Value.beqEntries xs ys
  | _, _ => false
end

mutual
theorem Value.beq_eq : ∀ a b : Value, Value.beq a b = true ↔ a = b
  | .null, b => by cases b <;> simp [Value.beq]
  | .str a, b => by cases b <;> simp [Value.beq]
  | .int a, b => by cases b <;> simp [Value.beq]
  | .bool a, b => by cases b <;> simp [Value.beq]
  | .float a, b => by cases b <;> simp [Value.beq]
  | .seq a, b => by cases b <;> simp [Value.beq, Value.beqList_eq]
  | .map a, b => by cases b <;> simp [Value.beq, Value.beqEntries_eq]
theorem Value.beqList_eq : ∀ a b : List Value, Value.beqList a b = true ↔ a = b
  | [], b => by cases b <;> simp [Value.beqList]
  | x :: xs, b => by cases b <;> simp [Value.beqList, Value.beq_eq, Value.beqList_eq]
theorem Value.beqEntries_eq :
    ∀ a b : List (Str × Value), Value.beqEntries a b = true ↔ a = b
  | [], b => by cases b <;> simp [Value.beqEntries]
  | (k, x) :: xs, b => by
    cases b with
    | nil => simp [Value.beqEntries]
    | cons y ys =>
      obtain ⟨l, y⟩ := y
      simp [Value.beqEntries, Value.beq_eq, Value.beqEntries_eq, and_assoc]
end

instance : DecidableEq Value := fun a b => decidable_of_iff _ (Value.beq_eq a b)

/-- The `reflect.Kind`s the resolvers distinguish. -/
inductive Kind where
  | Invalid | String | Int | Bool | Float64 | Slice | Map
  deriving Repr, DecidableEq

/-- The `v.Kind()` of a value. -/
def Value.Kind : Value → Kind
  | .null => .Invalid
  | .str _ => .String
  | .int _ => .Int
  | .bool _ => .Bool
  | .float _ => .Float64
  | .seq _ => .Slice
  | .map _ => .Map

/-- The closure `getKey` / `drilldown`: range over the keys of the map and take
the value under the key equal to `key`. -/
def mapIndex (key : Str) : List (Str × Value) → Option Value
  | [] => none
  | (k, x) :: rest => if k = key then some x else mapIndex key rest

/-! ## Scalar-mode resolution -/

/-- The `for _, key := range keySlice` loop of `getValueFromStruct`; yields the
value `v` the loop ends with. -/
def getValueLoop : List Str → Value → Result Value
  | [], v => .ok v
  | key :: rest, v =>
    if key.length = 0 then .ok v
    else
      match v with
      | .map entries =>
        match mapIndex key entries with
        | some x => getValueLoop rest x
        | none => .error "key not found"
      | _ => .error "only accepts maps; got reflect.Value"

/-- The function `getValueFromStruct(keyWithDots, object)`. -/
def getValueFromStruct (keyWithDots : Str) (object : Value) : Result Value :=
  match getValueLoop (splitDots keyWithDots) object with
  | .ok v =>
    match v.Kind with
    | .Invalid => .error "no value"
    | .String => .ok v
    | .Int => .ok v
    | .Bool => .ok v
    | .Float64 => .ok v
    | _ => .error "only scalar values supported"
  | .error e => .error e
  | .panic e => .panic e

/-! ## Subtree-mode resolution -/

/-- What `leaf` holds when an iteration of the loop of `getStructSubPath`
starts: a map made by the function itself (`structure`, or the `added` map of
the iteration before), or nil. -/
inductive Leaf where
  | fresh
  | nil
  deriving Repr, DecidableEq

/-- The first `switch v.Kind()` of the loop body: a map is replaced by the
value under `key` (`none` when no key equals `key`), any other kind is left
as it is. -/
def drilldown (key : Str) : Value → Option Value
  | .map entries => mapIndex key entries
  | v => some v

/-- The `switch typedleaf := leaf.(type)` statement, seen from the map `leaf`
points at: the entries it gains.  A nil `leaf` matches no case. -/
def store : Leaf → Str → Value → List (Str × Value)
  | .fresh, key, added => [(key, added)]
  | .nil, _, _ => []

/-- The statement `key = strings.TrimRight(key, "[]")`: the key a segment is
looked up under in subtree mode. -/
def trimKey (key : Str) : Str := TrimRight key "[]".toList

/-- The `for i, key := range keySlice` loop of `getStructSubPath`, from
iteration `i` on, with `v` the current value.  The result is the content the
map behind `leaf` ends with: every map the function makes receives at most one
entry, in the iteration after the one that made it, so the maps are returned
bottom-up instead of being filled in place.  `added` is the value itself when
it is a slice (the loop then stops) or at the last index (where
`Interface()` panics on the zero `reflect.Value`), a new map when the value is
a map, and nil otherwise. -/
def subPathLoop (max : Nat) : Leaf → Nat → List Str → Value → Result (List (Str × Value))
  | _, _, [], _ => .ok []
  | leaf, i, key :: rest, v =>
    let key := trimKey key
    if key.length = 0 then .ok []
    else
      match drilldown key v with
      | none => .error "key not found"
      | some v =>
        if v.Kind = .Slice then .ok (store leaf key v)
        else if i = max then
          match v with
          | .null => .panic "reflect: call of reflect.Value.Interface on zero Value"
          | _ => .ok (store leaf key v)
        else if v.Kind = .Map then
          match subPathLoop max .fresh (i + 1) rest v with
          | .ok inner => .ok (store leaf key (.map inner))
          | .error e => .error e
          | .panic e => .panic e
        else
          match subPathLoop max .nil (i + 1) rest v with
          | .ok _ => .ok (store leaf key .null)
          | .error e => .error e
          | .panic e => .panic e

/-- The function `getStructSubPath(keyWithDots, object)`; the result is `structure`. -/
def getStructSubPath (keyWithDots : Str) (object : Value) : Result Value :=
  let keySlice := splitDots keyWithDots
  match subPathLoop (keySlice.length - 1) .fresh 0 keySlice object with
  | .ok entries => .ok (.map entries)
  | .error e => .error e
  | .panic e => .panic e

/-! ## Specification vocabulary for paths -/

/-- The value found by following the keys `ks` down nested mappings. -/
def valueAt : Value → List Str → Option Value
  | v, [] => some v
  | .map entries, k :: ks =>
    match mapIndex k entries with
    | some x => valueAt x ks
    | none => none
  | _, _ :: _ => none

/-- The chain of single-key mappings `{k1: {k2: … {kn: x}}}` (and `x` itself for no key). -/
def chain : List Str → Value → Value
  | [], x => x
  | k :: ks, x => .map [(k, chain ks x)]

/-- The dotted path with the given segments. -/
def joinDots : List Str → Str
  | [] => []
  | [s] => s
  | s :: t :: rest => s ++ '.' :: joinDots (t :: rest)

/-- The segment ends in one of the characters `[` and `]`. -/
def endsInBracket (k : Str) : Bool :=
  match k.getLast? with
  | some c => c = '[' || c = ']'
  | none => false

/-- The segments with the array marker `[]` appended to those flagged `true`. -/
def addMarkers : List Str → List Bool → List Str
  | s :: segs, true :: marks => (s ++ "[]".toList) :: addMarkers segs marks
  | s :: segs, false :: marks => s :: addMarkers segs marks
  | segs, _ => segs

/-- A scalar: string, integer, boolean or floating-point number. -/
def Value.isScalar : Value → Bool
  | .str _ => true
  | .int _ => true
  | .bool _ => true
  | .float _ => true
  | _ => false

/-! ## Annotations -/

/-- Raw JSON text (`apiext.JSON.Raw`, a `[]byte`). -/
abbrev Raw := Str

/-- A Go slice, `none` being the nil slice. -/
abbrev Slice (α : Type) := Option (List α)

/-- The `len` of a slice. -/
def Slice.len {α : Type} : Slice α → Nat
  | none => 0
  | some xs => xs.length

/-- The elements a `range` over the slice visits. -/
def Slice.elems {α : Type} : Slice α → List α
  | none => []
  | some xs => xs

/-- The marker struct `Doc`. -/
structure Doc where
  Availability : Str
  Link : Slice Str
  deriving Repr, DecidableEq

/-- The zero value `Doc{}`. -/
def Doc.zero : Doc := ⟨[], none⟩

/-- The calls into `encoding/json` the program makes; the package is not part
of the repository and is a parameter of the embedding.
`UnmarshalDoc raw` is `json.Unmarshal(raw, d)` for `d := &Doc{}` and gives the
decoded `d`; `MarshalDoc d` is `json.Marshal(d)`; `UnmarshalString raw` is
`json.Unmarshal(raw, &s)` for `s := ""` and gives the decoded `s`. -/
structure JSON where
  UnmarshalDoc : Raw → Except String Doc
  MarshalDoc : Doc → Except String Raw
  UnmarshalString : Raw → Except String Str

/-- The call `mergo.Merge(d, m)` on two `Doc`s, without options (in particular
without `mergo.WithOverride`).  The library walks the fields of the struct and
sets a field of the destination only when that field is empty in the
destination (`isEmptyValue`: length zero for a string and for a slice) and not
empty in the source; for two values of one struct type it returns no error. -/
def mergoMerge (dst src : Doc) : Except String Doc :=
  .ok {
    Availability :=
      if dst.Availability.length = 0 ∧ src.Availability.length ≠ 0 then src.Availability
      else dst.Availability
    Link := if dst.Link.len = 0 ∧ src.Link.len ≠ 0 then src.Link else dst.Link }

/-! ## Schema nodes -/

/-- A `*float64`: the address and the number stored there.  Two pointers are
equal when their addresses are. -/
structure FloatPtr where
  addr : Nat
  val : Float64
  deriving Repr, DecidableEq

/-- The fields of `apiext.JSONSchemaProps` the program reads.  `Items` is the
`*JSONSchemaPropsOrArray`, given by its `Schema *JSONSchemaProps`: `none` is a
nil `Items`, `some none` an `Items` whose `Schema` is nil.  `Properties` is a
Go map given by its entries; the first entry of a key is its binding. -/
inductive JSONSchemaProps where
  | mk (Description : Str) (Typ : Str) (Maximum : Option FloatPtr) (Minimum : Option FloatPtr)
      (Pattern : Str) (Required : List Str) (Items : Option (Option JSONSchemaProps))
      (Properties : List (Str × JSONSchemaProps)) (Enum : List Raw) (Example : Option Raw)

namespace JSONSchemaProps

/-- Field `Description`. -/
def Description : JSONSchemaProps → Str
  | mk d _ _ _ _ _ _ _ _ _ => d
/-- Field `Type`. -/
def Typ : JSONSchemaProps → Str
  | mk _ t _ _ _ _ _ _ _ _ => t
/-- Field `Maximum`. -/
def Maximum : JSONSchemaProps → Option FloatPtr
  | mk _ _ m _ _ _ _ _ _ _ => m
/-- Field `Minimum`. -/
def Minimum : JSONSchemaProps → Option FloatPtr
  | mk _ _ _ m _ _ _ _ _ _ => m
/-- Field `Pattern`. -/
def Pattern : JSONSchemaProps → Str
  | mk _ _ _ _ p _ _ _ _ _ => p
/-- Field `Required`. -/
def Required : JSONSchemaProps → List Str
  | mk _ _ _ _ _ r _ _ _ _ => r
/-- Field `Items` (through `Items.Schema`). -/
def Items : JSONSchemaProps → Option (Option JSONSchemaProps)
  | mk _ _ _ _ _ _ i _ _ _ => i
/-- Field `Properties`. -/
def Properties : JSONSchemaProps → List (Str × JSONSchemaProps)
  | mk _ _ _ _ _ _ _ p _ _ => p
/-- Field `Enum`. -/
def Enum : JSONSchemaProps → List Raw
  | mk _ _ _ _ _ _ _ _ e _ => e
/-- Field `Example`. -/
def Example : JSONSchemaProps → Option Raw
  | mk _ _ _ _ _ _ _ _ _ x => x

/-- The zero value `JSONSchemaProps{}`. -/
def zero : JSONSchemaProps := mk [] [] none none [] [] none [] [] none

/-- The assignment `schema.Example = &apiext.JSON{Raw: b}`. -/
def setExample (b : Raw) : JSONSchemaProps → JSONSchemaProps
  | mk d t mx mn p r i props e _ => mk d t mx mn p r i props e (some b)

/-- The assignment `node.Type = t`. -/
def setTyp (t : Str) : JSONSchemaProps → JSONSchemaProps
  | mk d _ mx mn p r i props e x => mk d t mx mn p r i props e x

/-- The assignment `node.Properties = props`. -/
def setProperties (props : List (Str × JSONSchemaProps)) : JSONSchemaProps → JSONSchemaProps
  | mk d t mx mn p r i _ e x => mk d t mx mn p r i props e x

end JSONSchemaProps

/-- The method `Doc.ApplyToSchema`: the updated schema node, or the returned
error (the node is then left as it was). -/
def Doc.ApplyToSchema (json : JSON) (m : Doc) (schema : JSONSchemaProps) :
    Except String JSONSchemaProps :=
  let decoded : Except String Doc :=
    match schema.Example with
    | some raw => json.UnmarshalDoc raw
    | none => .ok Doc.zero
  match decoded with
  | .error err => .error err
  | .ok d =>
    match mergoMerge d m with
    | .error err => .error err
    | .ok d =>
      match json.MarshalDoc d with
      | .error err => .error err
      | .ok b => .ok (schema.setExample b)

/-- The function `hasRequired(node, key)`.  Reading `node.Items.Schema.Required`
through a nil `Schema` is a nil-pointer panic. -/
def hasRequired (node : JSONSchemaProps) (key : Str) : Result Bool :=
  if node.Required.any (fun k => k == key) then .ok true
  else
    match node.Items with
    | none => .ok false
    | some none => .panic "invalid memory address or nil pointer dereference"
    | some (some schema) =>
      if schema.Required.any (fun k => k == key) then .ok true else .ok false

/-! ## The schema walk -/

/-- Go `unicode.IsSpace`. -/
def isSpace (c : Char) : Bool :=
  let n := c.toNat
  (0x09 ≤ n && n ≤ 0x0D) || n = 0x20 || n = 0x85 || n = 0xA0 || n = 0x1680 ||
    (0x2000 ≤ n && n ≤ 0x200A) || n = 0x2028 || n = 0x2029 || n = 0x202F || n = 0x205F ||
    n = 0x3000

/-- Go `strings.TrimSpace`. -/
def TrimSpace (s : Str) : Str :=
  ((s.dropWhile isSpace).reverse.dropWhile isSpace).reverse

/-- The struct `ExtDoc`. -/
structure ExtDoc where
  Availability : Str
  Default : Str
  Description : Str
  Enum : List Str
  Level : Nat
  Link : Slice Str
  Maximum : Option FloatPtr
  Minimum : Option FloatPtr
  Path : Str
  Pattern : Str
  Required : Bool
  Title : Str
  Typ : Str
  deriving Repr, DecidableEq

/-- What `WriteReferenceDoc` writes to `w`, piece by piece: `entry e` stands for
the text of `e.formatStraight(w)`, `exampleBlock v` for the collapsible example
block that encodes `map[string]interface{}{"spec": v}`. -/
inductive Chunk where
  | entry (e : ExtDoc)
  | exampleBlock (v : Value)
  deriving Repr, DecidableEq

/-- The effect of a call: the chunks written, in order, and the message of the
panic that ended it, if one did. -/
structure Trace where
  out : List Chunk
  panic : Option String
  deriving Repr, DecidableEq

/-- A call that writes nothing and returns. -/
def Trace.nothing : Trace := ⟨[], none⟩

/-- Sequential composition: `b` runs after `a` unless `a` panicked. -/
def Trace.seq (a b : Trace) : Trace :=
  match a.panic with
  | some _ => a
  | none => ⟨a.out ++ b.out, b.panic⟩

/-- The calls of a list, one after the other. -/
def Trace.seqAll : List Trace → Trace
  | [] => Trace.nothing
  | t :: ts => t.seq (Trace.seqAll ts)

/-- The package-level variables `defaultApplication` and `exampleApplication`,
and the library calls of the walk: the `encoding/json` calls and
`fmt.Sprintf("%v", f)` for a `float64`. -/
structure Env where
  json : JSON
  defaultApplication : Value
  exampleApplication : Value
  formatFloat : Float64 → Str

/-- The call `fmt.Sprintf("%v", defaultValue)` on a value returned by
`getValueFromStruct`, which is a string, an int, a bool or a float64. -/
def sprintValue (env : Env) : Value → Str
  | .str s => s
  | .int n => (toString n).toList
  | .bool b => if b then "true".toList else "false".toList
  | .float f => env.formatFloat f
  | _ => "<nil>".toList

/-- The keys a `range` over a Go map visits: every key once.  The order of the
visit is not fixed by the language; here it is the order of the entries. -/
def mapKeys (props : List (Str × JSONSchemaProps)) : List Str :=
  (props.map Prod.fst).dedup

/-- The body of the loop over `node.Enum`: the decoded string, or the raw text
when it does not decode to a string. -/
def decodeEnum (json : JSON) (raw : Raw) : Str :=
  match json.UnmarshalString raw with
  | .ok s => s
  | .error _ => raw

/-- The composite literal `&ExtDoc{…}` of `WriteReferenceDoc`. -/
def newEntry (level : Nat) (jsonpath key : Str) (required : Bool) (node : JSONSchemaProps) :
    ExtDoc where
  Availability := []
  Default := []
  Description := TrimSpace node.Description
  Enum := []
  Level := level
  Link := none
  Maximum := node.Maximum
  Minimum := node.Minimum
  Path := jsonpath
  Pattern := node.Pattern
  Required := required
  Title := key
  Typ := node.Typ

/-- The statement `entry.Default = fmt.Sprintf("%v", defaultValue)`, made when
the default lookup returned no error. -/
def setDefault (env : Env) (defaultValue : Result Value) (entry : ExtDoc) : ExtDoc :=
  match defaultValue with
  | .ok v => { entry with Default := sprintValue env v }
  | _ => entry

/-- The block `if len(node.Enum) > 0 { … }` that fills `entry.Enum`. -/
def setEnum (env : Env) (node : JSONSchemaProps) (entry : ExtDoc) : ExtDoc :=
  if node.Enum.length > 0 then { entry with Enum := node.Enum.map (decodeEnum env.json) }
  else entry

/-- The block `if node.Example != nil { … }`: availability and links are taken
from the annotation when it decodes; a decoding error is only logged. -/
def setAvailabilityLink (env : Env) (node : JSONSchemaProps) (entry : ExtDoc) : ExtDoc :=
  match node.Example with
  | some raw =>
    match env.json.UnmarshalDoc raw with
    | .ok d => { entry with Availability := d.Availability, Link := d.Link }
    | .error _ => entry
  | none => entry

/-- The part of `WriteReferenceDoc` from the default lookup to the example
block: it completes `entry` and, for a non-empty `jsonpath`, writes it,
followed by the example block when `getStructSubPath` succeeds. -/
def writeEntry (env : Env) (jsonpath : Str) (entry : ExtDoc) (node : JSONSchemaProps) : Trace :=
  match getValueFromStruct (Trim jsonpath ".".toList) env.defaultApplication with
  | .panic msg => ⟨[], some msg⟩
  | defaultValue =>
    let entry := setAvailabilityLink env node (setEnum env node (setDefault env defaultValue entry))
    if jsonpath.length > 0 then
      match getStructSubPath (Trim jsonpath ".".toList) env.exampleApplication with
      | .ok sub => ⟨[.entry entry, .exampleBlock sub], none⟩
      | .error _ => ⟨[.entry entry], none⟩
      | .panic msg => ⟨[.entry entry], some msg⟩
    else Trace.nothing

mutual
/-- The function `WriteReferenceDoc(w, level, jsonpath, key, parent, node)`, as
the trace it leaves on `w`.  The array override reads `node.Items.Schema`,
which panics on a nil pointer. -/
def WriteReferenceDoc (env : Env) (level : Nat) (jsonpath key : Str) (parent : JSONSchemaProps) :
    JSONSchemaProps → Trace
  | .mk d t mx mn p r items props e x =>
    if jsonpath = ".metadata".toList ∨ jsonpath = ".status".toList then Trace.nothing
    else
      let node : JSONSchemaProps :=
        if e.length > 0 then .mk d "enum".toList mx mn p r items props e x
        else .mk d t mx mn p r items props e x
      match hasRequired parent key with
      | .ok required =>
        let entry := newEntry level jsonpath key required node
        if node.Typ = "array".toList then
          match items with
          | some (some (.mk _ _ _ _ _ _ _ iprops _ _)) =>
            let node := node.setProperties iprops
            let jsonpath := jsonpath ++ "[]".toList
            if iprops.length = 0 then writeEntry env jsonpath entry node
            else
              (writeEntry env jsonpath entry node).seq
                (Trace.seqAll ((sortStrings (mapKeys iprops)).map fun k =>
                  docChild env (level + 1) (jsonpath ++ ".".toList ++ k) k node iprops))
          | _ => ⟨[], some "invalid memory address or nil pointer dereference"⟩
        else
          if props.length = 0 then writeEntry env jsonpath entry node
          else
            (writeEntry env jsonpath entry node).seq
              (Trace.seqAll ((sortStrings (mapKeys props)).map fun k =>
                docChild env (level + 1) (jsonpath ++ ".".toList ++ k) k node props))
      | .error msg => ⟨[], some msg⟩
      | .panic msg => ⟨[], some msg⟩
/-- The call `WriteReferenceDoc(w, level, jsonpath, k, node, node.Properties[k])`
of the loop over the sorted keys, `props` being the entries of
`node.Properties` still to be searched for `k`.  The loop only asks for keys of
the map, so the search does not run off the end. -/
def docChild (env : Env) (level : Nat) (jsonpath k : Str) (parent : JSONSchemaProps) :
    List (Str × JSONSchemaProps) → Trace
  | [] => Trace.nothing
  | (k', child) :: rest =>
    if k' = k then WriteReferenceDoc env level jsonpath k parent child
    else docChild env level jsonpath k parent rest
end

/-! ## Specification vocabulary for the walk -/

/-- The value `node.Properties[k]` for a key of the map: its first binding. -/
def propAt (k : Str) : List (Str × JSONSchemaProps) → Option JSONSchemaProps
  | [] => none
  | (k', child) :: rest => if k' = k then some child else propAt k rest

/-- The node as `WriteReferenceDoc` holds it after `node.Type = "enum"` has
been applied to a node with enum values. -/
def typedNode (node : JSONSchemaProps) : JSONSchemaProps :=
  if node.Enum.length > 0 then node.setTyp "enum".toList else node

/-- The node as `WriteReferenceDoc` holds it when it turns to the children:
for a node it treats as an array the properties are those of the items
schema.  `none` when the array has no items schema (the override panics). -/
def walkedNode (node : JSONSchemaProps) : Option JSONSchemaProps :=
  if (typedNode node).Typ = "array".toList then
    match node.Items with
    | some (some items) => some ((typedNode node).setProperties items.Properties)
    | _ => none
  else some (typedNode node)

/-- The `jsonpath` as `WriteReferenceDoc` holds it when it turns to the children. -/
def walkedPath (jsonpath : Str) (node : JSONSchemaProps) : Str :=
  if (typedNode node).Typ = "array".toList then jsonpath ++ "[]".toList else jsonpath

/-- The recursive call for the child under key `k` of the node `node`, itself
visited at `level` with the children's paths starting with `jsonpath`. -/
def childTrace (env : Env) (level : Nat) (jsonpath : Str) (node : JSONSchemaProps) (k : Str) :
    Trace :=
  match propAt k node.Properties with
  | some child => WriteReferenceDoc env (level + 1) (jsonpath ++ ".".toList ++ k) k node child
  | none => Trace.nothing

/-- The paths of the entries a call has written, in order. -/
def documentedPaths (t : Trace) : List Str :=
  t.out.filterMap fun c =>
    match c with
    | .entry e => some e.Path
    | .exampleBlock _ => none

/-! ## A codec for the examples -/

/-- The rest of `s` after the prefix `pre`, when `s` starts with it. -/
def stripPrefix : Str → Str → Option Str
  | [], s => some s
  | _ :: _, [] => none
  | p :: pre, c :: s => if p = c then stripPrefix pre s else none

/-- Write a string as a JSON string; no character is escaped. -/
def writeString (s : Str) : Str := '"' :: s ++ ['"']

/-- Write the elements of a list of strings, separated by commas. -/
def writeStrings : List Str → Str
  | [] => []
  | [s] => writeString s
  | s :: t :: rest => writeString s ++ ',' :: writeStrings (t :: rest)

/-- Write a `Doc` the way `json.Marshal` does when no character needs an escape. -/
def writeDoc (d : Doc) : Raw :=
  "\x7b\"Availability\":".toList ++ writeString d.Availability ++ ",\"Link\":".toList ++
    (match d.Link with
      | none => "null".toList
      | some xs => '[' :: writeStrings xs ++ [']']) ++ "\x7d".toList

/-- Read the characters of a JSON string up to its closing quote; escapes are not read. -/
def readString : Str → Str → Option (Str × Str)
  | [], _ => none
  | c :: rest, acc =>
    if c = '"' then some (acc.reverse, rest)
    else if c = '\\' then none
    else readString rest (c :: acc)

/-- Read the elements of a JSON array of strings after its first element, up to `]`. -/
def readMore : Nat → Str → List Str → Option (List Str × Str)
  | 0, _, _ => none
  | fuel + 1, s, acc =>
    match s with
    | ']' :: rest => some (acc.reverse, rest)
    | ',' :: '"' :: rest =>
      match readString rest [] with
      | some (x, rest) => readMore fuel rest (x :: acc)
      | none => none
    | _ => none

/-- Read a `Doc` from a text in the form `writeDoc` writes. -/
def readDoc (raw : Raw) : Except String Doc :=
  match stripPrefix "\x7b\"Availability\":\"".toList raw with
  | none => .error "invalid character"
  | some s =>
    match readString s [] with
    | none => .error "unexpected end of JSON input"
    | some (a, s) =>
      match stripPrefix ",\"Link\":".toList s with
      | none => .error "invalid character"
      | some s =>
        if s = "null\x7d".toList then .ok ⟨a, none⟩
        else if s = "[]\x7d".toList then .ok ⟨a, some []⟩
        else
          match stripPrefix "[\"".toList s with
          | none => .error "invalid character"
          | some s =>
            match readString s [] with
            | none => .error "unexpected end of JSON input"
            | some (x, s) =>
              match readMore s.length s [x] with
              | some (xs, rest) =>
                if rest = "\x7d".toList then .ok ⟨a, some xs⟩ else .error "invalid character"
              | none => .error "invalid character"

/-- Read a JSON string in the form `writeString` writes. -/
def readQuoted (raw : Raw) : Except String Str :=
  match raw with
  | '"' :: rest =>
    match readString rest [] with
    | some (x, []) => .ok x
    | _ => .error "invalid character"
  | _ => .error "invalid character"

/-- A codec to instantiate the `JSON` parameter in examples: it writes a `Doc`
as `encoding/json` does when no character needs an escape, and reads back the
texts of that form. -/
def sampleJSON : JSON where
  UnmarshalDoc := readDoc
  MarshalDoc := fun d => .ok (writeDoc d)
  UnmarshalString := readQuoted

/-- An environment for the examples: defaults `{b: 3}`, example instance
`{a: [{y: "v"}], b: 4}`, floats printed as nothing. -/
def sampleEnv : Env where
  json := sampleJSON
  defaultApplication := .map [("b".toList, .int 3)]
  exampleApplication :=
    .map [("a".toList, .seq [.map [("y".toList, .str "v".toList)]]), ("b".toList, .int 4)]
  formatFloat := fun _ => []

/-- A schema node of the given type without children. -/
def sampleLeaf (t : String) : JSONSchemaProps :=
  .mk [] t.toList none none [] [] none [] [] none

/-- An object schema node with the given required keys and properties. -/
def sampleObject (required : List Str) (props : List (Str × JSONSchemaProps)) :
    JSONSchemaProps :=
  .mk [] "object".toList none none [] required none props [] none

/-- An array schema node with the given items schema. -/
def sampleArray (items : JSONSchemaProps) : JSONSchemaProps :=
  .mk [] "array".toList none none [] [] (some (some items)) [] [] none

/-! ## Rendering of an entry -/

/-- The call `fmt.Sprintf(format, args...)` for string arguments and the verbs
`%s` and `%v`, the only ones in the formats of the program: each verb is
replaced by the next argument; a verb without an argument prints as
`%!s(MISSING)`. -/
def Sprintf : Str → List Str → Str
  | [], _ => []
  | [c], _ => [c]
  | c :: d :: rest, args =>
    if c = '%' ∧ (d = 's' ∨ d = 'v') then
      match args with
      | a :: args => a ++ Sprintf rest args
      | [] => '%' :: '!' :: d :: "(MISSING)".toList ++ Sprintf rest []
    else c :: Sprintf (d :: rest) args

/-- The call `strings.ReplaceAll(s, "``", "_no value_")`: the occurrences
are found from left to right and do not overlap. -/
def replaceDoubleBackticks : Str → Str
  | [] => []
  | [c] => [c]
  | c :: d :: rest =>
    if c = '`' ∧ d = '`' then "_no value_".toList ++ replaceDoubleBackticks rest
    else c :: replaceDoubleBackticks (d :: rest)

/-- The function `linefmt(format, args...)`. -/
def linefmt (format : Str) (args : List Str) : Str :=
  let format := Sprintf format args
  let format := if format.length = 0 then "_no value_".toList else format
  let format := replaceDoubleBackticks format
  format ++ "<br />\n".toList

/-- The integer nearest to `mant * 2^exp`, a tie going to the even one. -/
def roundHalfEven (mant : Nat) (exp : Int) : Nat :=
  if 0 ≤ exp then mant * 2 ^ exp.toNat
  else
    let d := 2 ^ (-exp).toNat
    let q := mant / d
    let r := mant % d
    if 2 * r < d then q
    else if d < 2 * r then q + 1
    else if q % 2 = 0 then q else q + 1

/-- The call `strconv.FormatFloat(f, 'f', 0, 64)` on a finite number: the
sign and the decimal digits of the nearest integer. -/
def FormatFloat (f : Float64) : Str :=
  (if f.neg then ['-'] else []) ++ Nat.toDigits 10 (roundHalfEven f.mant f.exp)

/-- The function `floatfmt(f)`. -/
def floatfmt : Option FloatPtr → Str
  | none => "+Inf".toList
  | some p => FormatFloat p.val

/-- The call `strconv.FormatBool(b)`. -/
def FormatBool (b : Bool) : Str := if b then "true".toList else "false".toList

/-- The loop `for i, item := range list` of `writeList`, from index `i` on. -/
def writeListLoop (max : Int) : Nat → List Str → Str
  | _, [] => []
  | i, item :: rest =>
    (if item.length > 0 then Sprintf "`%s`".toList [item]
      else Sprintf "_(empty string)_".toList []) ++
    (if (i : Int) ≠ max then ", ".toList else []) ++
    writeListLoop max (i + 1) rest

/-- The function `writeList(w, list)`, as the text it writes. -/
def writeList (list : List Str) : Str :=
  let list := sortStrings list
  let max : Int := (list.length : Int) - 1
  writeListLoop max 0 list ++ "<br />\n".toList

/-- The comparison `p != q` of two `*float64`: nil differs from every address,
two addresses differ when they are not the same. -/
def ptrNe (p q : Option FloatPtr) : Bool :=
  p.map (fun x => x.addr) != q.map (fun x => x.addr)

/-- The first two writes of `formatStraight`: the heading and the newline. -/
def headingLine (m : ExtDoc) : Str :=
  Sprintf "%s %s".toList [List.replicate m.Level '#', TrimLeft m.Path ".".toList] ++
    "\n".toList

/-- The writes of `formatStraight` between the heading and the block of the
bounds: description, links, type, required, default, availability, pattern. -/
def beforeBounds (m : ExtDoc) : Str :=
  (if m.Description.length > 0 then m.Description ++ "\n\n".toList else []) ++
  (if m.Link.len > 0 then
      "Relevant information:\n\n".toList ++
        (m.Link.elems.flatMap fun link => Sprintf "* [%s](%s)\n".toList [link, link]) ++
        "\n".toList
    else []) ++
  linefmt "Type: `%s`".toList [m.Typ] ++
  linefmt "Required: `%s`".toList [FormatBool m.Required] ++
  (if m.Default.length > 0 then linefmt "Default value: `%v`".toList [m.Default] else []) ++
  (if m.Availability.length > 0 then linefmt "Availability: %s".toList [m.Availability]
    else []) ++
  (if m.Pattern.length > 0 then linefmt "Pattern: `%s`".toList [m.Pattern] else [])

/-- The block `if m.Minimum != m.Maximum { … }` of `formatStraight`. -/
def boundLines (m : ExtDoc) : Str :=
  if ptrNe m.Minimum m.Maximum then
    let min := floatfmt m.Minimum
    let max := floatfmt m.Maximum
    match m.Minimum, m.Maximum with
    | none, _ => linefmt "Maximum value: `%s`".toList [max]
    | some _, none => linefmt "Minimum value: `%s`".toList [min]
    | some _, some _ => linefmt "Value range: `%s`-`%s`".toList [min, max]
  else []

/-- The writes of `formatStraight` after the block of the bounds: the allowed
values and the closing newline. -/
def afterBounds (m : ExtDoc) : Str :=
  (if m.Enum.length > 0 then "Allowed values: ".toList ++ writeList m.Enum else []) ++
    "\n".toList

/-- The method `ExtDoc.formatStraight(w)`, as the text it writes. -/
def ExtDoc.formatStraight (m : ExtDoc) : Str :=
  headingLine m ++ beforeBounds m ++ boundLines m ++ afterBounds m

/-! ## The output sink -/

/-- The struct `multiwriter`: `w` is the wrapped `io.Writer`, given by its
state, `err` the retained error (`none` is nil). -/
structure multiwriter (σ : Type) where
  w : σ
  err : Option String

/-- The method `multiwriter.Write(p)`.  `dest` is the `Write` method of the
wrapped writer: from its state and the bytes it gives the returned pair
`(n, err)` and its next state. -/
def multiwriter.Write {σ : Type} (dest : σ → Str → (Int × Option String) × σ)
    (m : multiwriter σ) (p : Str) : (Int × Option String) × multiwriter σ :=
  match m.err with
  | some e => ((0, some e), m)
  | none =>
    match dest m.w p with
    | ((n, some e), w') => ((n, some e), ⟨w', some e⟩)
    | ((n, none), w') => ((n, none), ⟨w', none⟩)

/-- The method `multiwriter.Error()`. -/
def multiwriter.Error {σ : Type} (m : multiwriter σ) : Option String := m.err

/-- A sequence of `Write` calls on a multiwriter: the returned pairs and the
multiwriter afterwards. -/
def writeAll {σ : Type} (dest : σ → Str → (Int × Option String) × σ) :
    multiwriter σ → List Str → List (Int × Option String) × multiwriter σ
  | m, [] => ([], m)
  | m, p :: ps =>
    (((m.Write dest p).1 :: (writeAll dest (m.Write dest p).2 ps).1),
      (writeAll dest (m.Write dest p).2 ps).2)

/-- The same sequence of writes made on the destination itself. -/
def destAll {σ : Type} (dest : σ → Str → (Int × Option String) × σ) :
    σ → List Str → List (Int × Option String) × σ
  | s, [] => ([], s)
  | s, p :: ps => (((dest s p).1 :: (destAll dest (dest s p).2 ps).1),
      (destAll dest (dest s p).2 ps).2)

/-- A destination for the examples: its state is the text received so far; it
accepts writes until it holds 4 characters and then fails with `disk full`. -/
def sampleDest (s : Str) (p : Str) : (Int × Option String) × Str :=
  if s.length + p.length ≤ 4 then ((p.length, none), s ++ p)
  else ((0, some "disk full"), s)

/-! ## Specification vocabulary for the rendering -/

/-- The float represents the integer `n`. -/
def Float64.represents (f : Float64) (n : Int) : Prop :=
  f.neg = decide (n < 0) ∧
    ((0 ≤ f.exp ∧ f.mant * 2 ^ f.exp.toNat = n.natAbs) ∨
      (f.exp < 0 ∧ f.mant = n.natAbs * 2 ^ (-f.exp).toNat))

/-- The decimal numeral of an integer. -/
def intDecimal (n : Int) : Str :=
  (if n < 0 then ['-'] else []) ++ Nat.toDigits 10 n.natAbs

/-- The strings of a list joined by a separator. -/
def joinSep (sep : Str) : List Str → Str
  | [] => []
  | [s] => s
  | s :: t :: rest => s ++ sep ++ joinSep sep (t :: rest)

/-- An item of a rendered list: inline code, or the placeholder for the empty string. -/
def renderItem (item : Str) : Str :=
  if item = [] then "_(empty string)_".toList else '`' :: item ++ ['`']

/-- The values of the example blocks a call has written, in order. -/
def exampleBlocks (t : Trace) : List Value :=
  t.out.filterMap fun c =>
    match c with
    | .entry _ => none
    | .exampleBlock v => some v

/-- The string `s` written `k` times. -/
def repeatStr (s : Str) : Nat → Str
  | 0 => []
  | k + 1 => s ++ repeatStr s k

/-! ## The status of a Digdirator client (`pkg/apis/nais.io/v1`) -/

namespace NaisIoV1

/-- A `metav1.Time`, given by its instant; no function here looks inside it. -/
abbrev Time := Int

/-- A Go `map[string][]string`, `none` being the nil map; a map is given by
its entries, one for each key. -/
abbrev ScopeMap := Option (List (Str × Slice Str))

/-- The struct `ApplicationScope`. -/
structure ApplicationScope where
  Scopes : ScopeMap
  deriving Repr, DecidableEq

/-- The struct `DigdiratorStatus`. -/
structure DigdiratorStatus where
  SynchronizationState : Str
  SynchronizationTime : Option Time
  SynchronizationHash : Str
  SynchronizationSecretName : Str
  ClientID : Str
  CorrelationID : Str
  KeyIDs : Slice Str
  ApplicationScope : ApplicationScope
  deriving Repr, DecidableEq

/-- The method `SetApplicationScopeConsumer(applicationScope, orgNumbers)`, as the
status it leaves behind.  The map made by `make` is dropped at once for the
map literal with the single key `applicationScope`. -/
def DigdiratorStatus.SetApplicationScopeConsumer (st : DigdiratorStatus)
    (applicationScope : Str) (orgNumbers : Slice Str) : DigdiratorStatus :=
  let scopes : ScopeMap := some [(applicationScope, orgNumbers)]
  { st with ApplicationScope := { st.ApplicationScope with Scopes := scopes } }

/-- The method `GetApplicationScopes()`. -/
def DigdiratorStatus.GetApplicationScopes (st : DigdiratorStatus) : ScopeMap :=
  st.ApplicationScope.Scopes

/-- The value `m[key]` of a scope map with the flag `ok` of the lookup: `none`
when the key is absent (also for the nil map). -/
def scopeAt (m : ScopeMap) (key : Str) : Option (Slice Str) :=
  match m with
  | none => none
  | some entries => (entries.find? (fun e => e.1 == key)).map (fun e => e.2)

end NaisIoV1

end Docgen

namespace Docgen

/-! ## Lemmas on strings -/

theorem splitAux_append (sep : Char) (s : Str) (hs : sep ∉ s) (rest cur : Str) :
    splitAux sep (s ++ rest) cur = splitAux sep rest (s.reverse ++ cur) := by
  induction s generalizing cur with
  | nil => simp
  | cons c cs ih =>
    have hc : c ≠ sep := fun h => hs (by simp [h])
    have hcs : sep ∉ cs := fun h => hs (by simp [h])
    simp [splitAux, hc, ih hcs]

theorem splitDots_joinDots (segs : List Str) (hne : segs ≠ [])
    (hdot : ∀ s ∈ segs, '.' ∉ s) : splitDots (joinDots segs) = segs := by
  induction segs with
  | nil => exact absurd rfl hne
  | cons s rest ih =>
    cases rest with
    | nil =>
      have hs := hdot s (by simp)
      have h := splitAux_append '.' s hs [] []
      simp only [List.append_nil] at h
      simp [joinDots, splitDots, h, splitAux]
    | cons t rest =>
      have hs := hdot s (by simp)
      have h := splitAux_append '.' s hs ('.' :: joinDots (t :: rest)) []
      have ih2 := ih (by simp) (fun u hu => hdot u (by simp [hu]))
      simp only [splitDots] at ih2
      simp [joinDots, splitDots, h, splitAux, ih2]

theorem trimKey_idem (k : Str) : trimKey (trimKey k) = trimKey k := by
  unfold trimKey TrimRight
  rw [List.reverse_reverse]
  exact congrArg List.reverse (List.dropWhile_idempotent _ _)

theorem trimKey_append_marker (k : Str) : trimKey (k ++ "[]".toList) = trimKey k := by
  unfold trimKey TrimRight
  simp [List.dropWhile]

/-! ## Lemmas on the resolvers -/

theorem valueAt_cons_some {t : Value} {k : Str} {ks : List Str} {x : Value}
    (h : valueAt t (k :: ks) = some x) :
    ∃ entries y, t = .map entries ∧ mapIndex k entries = some y ∧ valueAt y ks = some x := by
  cases t with
  | map entries =>
    cases hm : mapIndex k entries with
    | none => simp [valueAt, hm] at h
    | some y => exact ⟨entries, y, rfl, hm, by simpa [valueAt, hm] using h⟩
  | _ => simp [valueAt] at h

theorem getValueLoop_of_valueAt (ks rest : List Str) (t x : Value)
    (hne : ∀ k ∈ ks, k ≠ []) (hx : valueAt t ks = some x) :
    getValueLoop (ks ++ rest) t = getValueLoop rest x := by
  induction ks generalizing t with
  | nil => simp [valueAt] at hx; simp [hx]
  | cons k ks ih =>
    obtain ⟨entries, y, rfl, hm, hy⟩ := valueAt_cons_some hx
    have hk : k ≠ [] := hne k (by simp)
    have hk2 : ¬ k.length = 0 := by simpa using hk
    simp only [List.cons_append, getValueLoop, hk2, if_false, hm]
    exact ih y (fun k hk => hne k (by simp [hk])) hy

theorem subPathLoop_trim (max : Nat) (leaf : Leaf) (i : Nat) (segs : List Str) (v : Value) :
    subPathLoop max leaf i (segs.map trimKey) v = subPathLoop max leaf i segs v := by
  induction segs generalizing leaf i v with
  | nil => rfl
  | cons s rest ih =>
    simp only [List.map_cons, subPathLoop, trimKey_idem, ih]

theorem subPathLoop_chain (max : Nat) (k : Str) (ks post : List Str) (i : Nat) (t x : Value)
    (hlen : i + (ks.length + post.length) = max)
    (hkey : ∀ a ∈ k :: ks, a ≠ [] ∧ trimKey a = a)
    (hx : valueAt t (k :: ks) = some x)
    (hstop : x.Kind = .Slice ∨ (post = [] ∧ x ≠ .null)) :
    subPathLoop max .fresh i (k :: ks ++ post) t = .ok [(k, chain ks x)] := by
  induction ks generalizing k i t with
  | nil =>
    obtain ⟨entries, y, rfl, hm, hy⟩ := valueAt_cons_some hx
    simp only [valueAt, Option.some.injEq] at hy
    subst hy
    obtain ⟨hk, htrim⟩ := hkey k (by simp)
    have hk2 : ¬ k.length = 0 := by simpa using hk
    rw [List.cons_append, subPathLoop]
    simp only [htrim, hk2, if_false, drilldown, hm, store, chain]
    rcases hstop with hs | ⟨rfl, hnull⟩
    · simp only [hs, if_true]
    · have hi : i = max := by simpa using hlen
      cases y <;> simp_all [Value.Kind]
  | cons k2 ks ih =>
    obtain ⟨entries, y, rfl, hm, hy⟩ := valueAt_cons_some hx
    obtain ⟨hk, htrim⟩ := hkey k (by simp)
    have hk2 : ¬ k.length = 0 := by simpa using hk
    obtain ⟨entries2, y2, rfl, -, -⟩ := valueAt_cons_some hy
    have hi : ¬ i = max := by simp only [List.length_cons] at hlen; omega
    have hrec := ih k2 (i + 1) (.map entries2)
      (by simp only [List.length_cons] at hlen; omega)
      (fun a ha => hkey a (List.mem_cons_of_mem _ ha)) hy
    rw [List.cons_append, subPathLoop]
    simp only [htrim, hk2, if_false, drilldown, hm, store, chain, Value.Kind, hi, if_true, hrec,
      reduceCtorEq]

theorem getStructSubPath_chain (segs post : List Str) (t x : Value) (hne : segs ≠ [])
    (hdot : ∀ a ∈ segs ++ post, '.' ∉ a)
    (hkey : ∀ a ∈ segs, trimKey a ≠ [])
    (hx : valueAt t (segs.map trimKey) = some x)
    (hstop : x.Kind = .Slice ∨ (post = [] ∧ x ≠ .null)) :
    getStructSubPath (joinDots (segs ++ post)) t = .ok (chain (segs.map trimKey) x) := by
  cases segs with
  | nil => exact absurd rfl hne
  | cons s segs =>
    unfold getStructSubPath
    simp only [splitDots_joinDots (s :: segs ++ post) (by simp) hdot]
    rw [← subPathLoop_trim, List.map_append, List.map_cons,
      subPathLoop_chain ((s :: segs ++ post).length - 1) (trimKey s) (segs.map trimKey)
        (post.map trimKey) 0 t x (by simp)
        (by
          intro a ha
          rw [← List.map_cons, List.mem_map] at ha
          obtain ⟨b, hb, rfl⟩ := ha
          exact ⟨hkey b hb, trimKey_idem b⟩)
        hx (by
          rcases hstop with h | ⟨rfl, h⟩
          · exact Or.inl h
          · exact Or.inr ⟨rfl, h⟩)]
    rfl

theorem trimKey_of_not_endsInBracket (k : Str) (h : endsInBracket k = false) :
    trimKey k = k := by
  rcases List.eq_nil_or_concat k with rfl | ⟨init, c, rfl⟩
  · rfl
  · have hc : ¬ (c = '[' ∨ c = ']') := by
      simpa [endsInBracket, List.getLast?_concat] using h
    have hmem : decide (c ∈ "[]".toList) = false := by
      simpa using hc
    unfold trimKey TrimRight
    rw [List.concat_eq_append, List.reverse_append, List.reverse_singleton, List.singleton_append,
      List.dropWhile_cons_of_neg (by rw [hmem]; exact Bool.false_ne_true)]
    simp

theorem map_trimKey_eq_self (ks : List Str) (h : ∀ k ∈ ks, endsInBracket k = false) :
    ks.map trimKey = ks := by
  induction ks with
  | nil => rfl
  | cons k ks ih =>
    rw [List.map_cons, trimKey_of_not_endsInBracket k (h k (by simp)),
      ih (fun a ha => h a (by simp [ha]))]

theorem getValueFromStruct_of_seq (ks post : List Str) (t : Value) (xs : List Value)
    (hne : ks ≠ []) (hdot : ∀ a ∈ ks ++ post, '.' ∉ a) (hkey : ∀ k ∈ ks, k ≠ [])
    (hx : valueAt t ks = some (.seq xs)) :
    ∃ msg, getValueFromStruct (joinDots (ks ++ post)) t = .error msg := by
  unfold getValueFromStruct
  rw [splitDots_joinDots (ks ++ post) (by simp [hne]) hdot,
    getValueLoop_of_valueAt ks post t (.seq xs) hkey hx]
  cases post with
  | nil => exact ⟨_, rfl⟩
  | cons p ps =>
    by_cases hp : p.length = 0
    · exact ⟨"only scalar values supported", by simp [getValueLoop, hp, Value.Kind]⟩
    · exact ⟨"only accepts maps; got reflect.Value", by simp [getValueLoop, hp]⟩

/-! ## Claims on the resolvers -/

/-- C3: scalar-mode resolution (`getValueFromStruct`) of a dotted path of
non-empty segments, each a key present at its level of the nested mappings,
returns the value at the path when it is a string, integer, boolean or
floating-point number, and fails with an error when it is a mapping, a
sequence or null. -/
theorem getValueFromStruct_scalar_mode (t : Value) (ks : List Str) (x : Value)
    (hne : ks ≠ []) (hseg : ∀ k ∈ ks, k ≠ [] ∧ '.' ∉ k) (hx : valueAt t ks = some x) :
    (x.isScalar = true → getValueFromStruct (joinDots ks) t = .ok x) ∧
    (x.isScalar = false → ∃ msg, getValueFromStruct (joinDots ks) t = .error msg) := by
  have hloop : getValueLoop (splitDots (joinDots ks)) t = .ok x := by
    rw [splitDots_joinDots ks hne (fun k hk => (hseg k hk).2)]
    have h := getValueLoop_of_valueAt ks [] t x (fun k hk => (hseg k hk).1) hx
    simpa [getValueLoop] using h
  unfold getValueFromStruct
  rw [hloop]
  cases x <;> simp [Value.isScalar, Value.Kind]

/-- The two examples of C3: path `a.b` returns 7 against `{a: {b: 7}}` and fails against
`{a: {b: {c: 1}}}`. -/
theorem getValueFromStruct_scalar_mode_witness :
    getValueFromStruct "a.b".toList
        (.map [("a".toList, .map [("b".toList, .int 7)])]) = .ok (.int 7) ∧
    ∃ msg, getValueFromStruct "a.b".toList
        (.map [("a".toList, .map [("b".toList, .map [("c".toList, .int 1)])])]) = .error msg :=
  ⟨(getValueFromStruct_scalar_mode (.map [("a".toList, .map [("b".toList, .int 7)])])
      ["a".toList, "b".toList] (.int 7) (by decide) (by decide) (by decide)).1 rfl,
   (getValueFromStruct_scalar_mode
      (.map [("a".toList, .map [("b".toList, .map [("c".toList, .int 1)])])])
      ["a".toList, "b".toList] (.map [("c".toList, .int 1)])
      (by decide) (by decide) (by decide)).2 rfl⟩

/-- C4 as stated fails: in `{"a]": 5}` the one-segment path `a]` names a key
whose value is 5, yet `getStructSubPath` looks up the key `a` and reports
`key not found`. -/
theorem getStructSubPath_chain_counterexample :
    valueAt (.map [("a]".toList, .int 5)]) ["a]".toList] = some (.int 5) ∧
    getStructSubPath (joinDots ["a]".toList]) (.map [("a]".toList, .int 5)])
      = .error "key not found" ∧
    getStructSubPath (joinDots ["a]".toList]) (.map [("a]".toList, .int 5)])
      ≠ .ok (chain ["a]".toList] (.int 5)) := by
  decide

/-- C4 (amended): for a path `k1.k2.….kn` (`n ≥ 1`) of non-empty segments none
of which ends in `[` or `]`, whose proper prefixes resolve to mappings and
which resolves to a non-null value `x`, `getStructSubPath` succeeds and
returns exactly the chain of single-key mappings `{k1: {k2: … {kn: x}}}`. -/
theorem getStructSubPath_returns_chain (t : Value) (ks : List Str) (x : Value)
    (hne : ks ≠ [])
    (hseg : ∀ k ∈ ks, k ≠ [] ∧ '.' ∉ k ∧ endsInBracket k = false)
    (hx : valueAt t ks = some x) (hnull : x ≠ .null) :
    getStructSubPath (joinDots ks) t = .ok (chain ks x) := by
  have hmap : ks.map trimKey = ks := map_trimKey_eq_self ks (fun k hk => (hseg k hk).2.2)
  have h := getStructSubPath_chain ks [] t x hne
    (fun a ha => (hseg a (by simpa using ha)).2.1)
    (fun a ha => by rw [trimKey_of_not_endsInBracket a (hseg a ha).2.2]; exact (hseg a ha).1)
    (by rw [hmap]; exact hx) (Or.inr ⟨rfl, hnull⟩)
  simpa [hmap] using h

/-- An instance of the amended C4: `a.b` against `{a: {b: {c: 1}, z: null}}` gives
`{a: {b: {c: 1}}}`, without the sibling key `z`. -/
theorem getStructSubPath_returns_chain_witness :
    getStructSubPath "a.b".toList
        (.map [("a".toList, .map [("b".toList, .map [("c".toList, .int 1)]),
          ("z".toList, .null)])])
      = .ok (.map [("a".toList, .map [("b".toList, .map [("c".toList, .int 1)])])]) :=
  getStructSubPath_returns_chain
    (.map [("a".toList, .map [("b".toList, .map [("c".toList, .int 1)]), ("z".toList, .null)])])
    ["a".toList, "b".toList] (.map [("c".toList, .int 1)])
    (by decide) (by decide) (by decide) (by decide)

/-- C5 as stated fails: at `{a: [1, 2]}` the path `a` reaches a non-empty
sequence; `getStructSubPath` returns the whole sequence under `a`, not its
first element, and `getValueFromStruct` returns an error. -/
theorem resolution_first_element_counterexample :
    valueAt (.map [("a".toList, .seq [.int 1, .int 2])]) ["a".toList]
      = some (.seq [.int 1, .int 2]) ∧
    getStructSubPath "a".toList (.map [("a".toList, .seq [.int 1, .int 2])])
      = .ok (.map [("a".toList, .seq [.int 1, .int 2])]) ∧
    getStructSubPath "a".toList (.map [("a".toList, .seq [.int 1, .int 2])])
      ≠ .ok (.map [("a".toList, .int 1)]) ∧
    getValueFromStruct "a".toList (.map [("a".toList, .seq [.int 1, .int 2])])
      = .error "only scalar values supported" ∧
    getValueFromStruct "a".toList (.map [("a".toList, .seq [.int 1, .int 2])])
      ≠ .ok (.int 1) := by
  decide

/-- C5 (amended): when the traversal of a path reaches a sequence, after the
segments `segs` and before the remaining segments `post` (none for the last
segment), subtree-mode resolution stops at that segment and returns the whole
sequence for it, unchanged, under the chain of the keys followed so far; the
remaining segments are ignored.  Scalar-mode resolution of such a path
returns an error.  Subtree mode follows each segment after stripping its
trailing `[` and `]`, scalar mode follows the segments as written. -/
theorem resolution_stops_at_sequence (t : Value) (segs post : List Str) (xs : List Value)
    (hne : segs ≠ []) (hdot : ∀ a ∈ segs ++ post, '.' ∉ a) :
    ((∀ s ∈ segs, trimKey s ≠ []) → valueAt t (segs.map trimKey) = some (.seq xs) →
      getStructSubPath (joinDots (segs ++ post)) t
        = .ok (chain (segs.map trimKey) (.seq xs))) ∧
    ((∀ s ∈ segs, s ≠ []) → valueAt t segs = some (.seq xs) →
      ∃ msg, getValueFromStruct (joinDots (segs ++ post)) t = .error msg) :=
  ⟨fun hkey hx => getStructSubPath_chain segs post t (.seq xs) hne hdot hkey hx (Or.inl rfl),
   fun hkey hx => getValueFromStruct_of_seq segs post t xs hne hdot hkey hx⟩

/-- An instance of the amended C5: against `{a: [{b: 1}, {b: 2}]}` the path `a[].b`
gives `{a: [{b: 1}, {b: 2}]}` in subtree mode, and the path `a.b` fails in scalar mode. -/
theorem resolution_stops_at_sequence_witness :
    getStructSubPath "a[].b".toList
        (.map [("a".toList, .seq [.map [("b".toList, .int 1)], .map [("b".toList, .int 2)]])])
      = .ok (.map [("a".toList,
          .seq [.map [("b".toList, .int 1)], .map [("b".toList, .int 2)]])]) ∧
    ∃ msg, getValueFromStruct "a.b".toList
        (.map [("a".toList, .seq [.map [("b".toList, .int 1)], .map [("b".toList, .int 2)]])])
      = .error msg :=
  ⟨(resolution_stops_at_sequence
      (.map [("a".toList, .seq [.map [("b".toList, .int 1)], .map [("b".toList, .int 2)]])])
      ["a[]".toList] ["b".toList] [.map [("b".toList, .int 1)], .map [("b".toList, .int 2)]]
      (by decide) (by decide)).1 (by decide) (by decide),
   (resolution_stops_at_sequence
      (.map [("a".toList, .seq [.map [("b".toList, .int 1)], .map [("b".toList, .int 2)]])])
      ["a".toList] ["b".toList] [.map [("b".toList, .int 1)], .map [("b".toList, .int 2)]]
      (by decide) (by decide)).2 (by decide) (by decide)⟩

theorem addMarkers_length (segs : List Str) (marks : List Bool) :
    (addMarkers segs marks).length = segs.length := by
  induction segs generalizing marks with
  | nil => cases marks with
    | nil => rfl
    | cons b bs => cases b <;> rfl
  | cons s segs ih =>
    cases marks with
    | nil => rfl
    | cons b bs => cases b <;> simp [addMarkers, ih]

theorem addMarkers_map_trimKey (segs : List Str) (marks : List Bool) :
    (addMarkers segs marks).map trimKey = segs.map trimKey := by
  induction segs generalizing marks with
  | nil => cases marks with
    | nil => rfl
    | cons b bs => cases b <;> rfl
  | cons s segs ih =>
    cases marks with
    | nil => rfl
    | cons b bs => cases b <;> simp only [addMarkers, List.map_cons, ih, trimKey_append_marker]

theorem addMarkers_no_dot (segs : List Str) (marks : List Bool) (h : ∀ s ∈ segs, '.' ∉ s) :
    ∀ s ∈ addMarkers segs marks, '.' ∉ s := by
  induction segs generalizing marks with
  | nil => cases marks with
    | nil => exact h
    | cons b bs => cases b <;> exact h
  | cons s segs ih =>
    have hs := h s (by simp)
    cases marks with
    | nil => exact h
    | cons b bs =>
      cases b
      · intro a ha
        simp only [addMarkers, List.mem_cons] at ha
        rcases ha with rfl | ha
        · exact hs
        · exact ih bs (fun a ha => h a (by simp [ha])) a ha
      · intro a ha
        simp only [addMarkers, List.mem_cons] at ha
        rcases ha with rfl | ha
        · simpa using hs
        · exact ih bs (fun a ha => h a (by simp [ha])) a ha

/-- The subtree half of C6: in `getStructSubPath`, array markers appended to
any segments of a path leave the outcome unchanged. -/
theorem getStructSubPath_marker_invariant (segs : List Str) (marks : List Bool) (t : Value)
    (hne : segs ≠ []) (hdot : ∀ s ∈ segs, '.' ∉ s) :
    getStructSubPath (joinDots (addMarkers segs marks)) t
      = getStructSubPath (joinDots segs) t := by
  have hne2 : addMarkers segs marks ≠ [] := by
    intro h
    have := addMarkers_length segs marks
    rw [h] at this
    exact hne (List.length_eq_zero.mp this.symm)
  unfold getStructSubPath
  simp only [splitDots_joinDots segs hne hdot,
    splitDots_joinDots _ hne2 (addMarkers_no_dot segs marks hdot), addMarkers_length]
  rw [← subPathLoop_trim, addMarkers_map_trimKey, subPathLoop_trim]

/-- C6, the failing case: against `{foo: {bar: 7}}` scalar-mode resolution of
`foo.bar` returns 7, but with the array marker, `foo[].bar`, it looks for the
key `foo[]` and returns `key not found`; subtree-mode resolution gives the
same result for both paths. -/
theorem getValueFromStruct_keeps_marker :
    getValueFromStruct "foo.bar".toList
        (.map [("foo".toList, .map [("bar".toList, .int 7)])]) = .ok (.int 7) ∧
    getValueFromStruct "foo[].bar".toList
        (.map [("foo".toList, .map [("bar".toList, .int 7)])]) = .error "key not found" ∧
    getStructSubPath "foo[].bar".toList
        (.map [("foo".toList, .map [("bar".toList, .int 7)])])
      = getStructSubPath "foo.bar".toList
        (.map [("foo".toList, .map [("bar".toList, .int 7)])]) := by
  decide

/-! ## Claims on the annotation merge -/

theorem ApplyToSchema_of_decoded (json : JSON) (m base : Doc) (schema : JSONSchemaProps)
    (raw : Raw) (hslot : schema.Example = some raw) (hdec : json.UnmarshalDoc raw = .ok base) :
    Doc.ApplyToSchema json m schema =
      (json.MarshalDoc
        { Availability :=
            if base.Availability.length = 0 ∧ m.Availability.length ≠ 0 then m.Availability
            else base.Availability
          Link := if base.Link.len = 0 ∧ m.Link.len ≠ 0 then m.Link else base.Link }).map
        (fun b => schema.setExample b) := by
  unfold Doc.ApplyToSchema
  simp only [hslot, hdec, mergoMerge]
  cases json.MarshalDoc _ <;> rfl

/-- C1 as stated fails: the slot holds `prod` as availability, the override
sets `dev`, and the slot written by `ApplyToSchema` still holds `prod`. -/
theorem ApplyToSchema_override_counterexample :
    sampleJSON.UnmarshalDoc "\x7b\"Availability\":\"prod\",\"Link\":null\x7d".toList
      = .ok ⟨"prod".toList, none⟩ ∧
    (Doc.ApplyToSchema sampleJSON ⟨"dev".toList, none⟩
        (JSONSchemaProps.zero.setExample
          "\x7b\"Availability\":\"prod\",\"Link\":null\x7d".toList)).map
        (fun schema => schema.Example)
      = .ok (some "\x7b\"Availability\":\"prod\",\"Link\":null\x7d".toList) ∧
    sampleJSON.UnmarshalDoc "\x7b\"Availability\":\"prod\",\"Link\":null\x7d".toList
      ≠ .ok ⟨"dev".toList, none⟩ :=
  ⟨rfl, rfl, by simp [sampleJSON, readDoc, stripPrefix, readString]⟩

/-- C1 (amended): when the existing payload decodes to `base`, `ApplyToSchema`
writes the encoding of a `Doc` in which each field that is set (non-empty) on
the override holds the override's value if that field is empty in `base`, and
keeps the value of `base` if it is set there. -/
theorem ApplyToSchema_fills_empty_fields (json : JSON) (m base : Doc)
    (schema : JSONSchemaProps) (raw : Raw)
    (hslot : schema.Example = some raw) (hdec : json.UnmarshalDoc raw = .ok base) :
    ∃ d : Doc,
      Doc.ApplyToSchema json m schema
        = (json.MarshalDoc d).map (fun b => schema.setExample b) ∧
      (m.Availability ≠ [] →
        d.Availability = if base.Availability = [] then m.Availability else base.Availability) ∧
      (m.Link.len ≠ 0 → d.Link = if base.Link.len = 0 then m.Link else base.Link) := by
  refine ⟨_, ApplyToSchema_of_decoded json m base schema raw hslot hdec, ?_, ?_⟩
  · intro hm
    by_cases hb : base.Availability = [] <;> simp [hb, hm]
  · intro hm
    by_cases hb : base.Link.len = 0 <;> simp [hb, hm]

/-- An instance of the amended C1: onto the decoded `{availability: "", links: ["b"]}`
the override `{availability: "dev", links: ["a"]}` gives availability `dev` and keeps the
links `["b"]`. -/
theorem ApplyToSchema_fills_empty_fields_witness :
    ∃ d : Doc,
      Doc.ApplyToSchema sampleJSON ⟨"dev".toList, some ["a".toList]⟩
          (JSONSchemaProps.zero.setExample
            "\x7b\"Availability\":\"\",\"Link\":[\"b\"]\x7d".toList)
        = (sampleJSON.MarshalDoc d).map
          (fun b => (JSONSchemaProps.zero.setExample
            "\x7b\"Availability\":\"\",\"Link\":[\"b\"]\x7d".toList).setExample b) ∧
      d.Availability = "dev".toList ∧ d.Link = some ["b".toList] := by
  obtain ⟨d, h, ha, hl⟩ := ApplyToSchema_fills_empty_fields sampleJSON
    ⟨"dev".toList, some ["a".toList]⟩ ⟨[], some ["b".toList]⟩
    (JSONSchemaProps.zero.setExample "\x7b\"Availability\":\"\",\"Link\":[\"b\"]\x7d".toList)
    "\x7b\"Availability\":\"\",\"Link\":[\"b\"]\x7d".toList rfl rfl
  exact ⟨d, h, by simpa using ha (by decide), by simpa [Slice.len] using hl (by decide)⟩

/-- C2: when the existing payload decodes to `base`, `ApplyToSchema` writes the
encoding of a `Doc` in which each field that is unset (empty) on the override
keeps the value it has in `base`; and merging `{availability: "", links:
["a"]}` onto the decoded `{availability: "prod", links: []}` writes the
encoding of `{availability: "prod", links: ["a"]}`. -/
theorem ApplyToSchema_keeps_unset_fields (json : JSON) (m base : Doc)
    (schema : JSONSchemaProps) (raw : Raw)
    (hslot : schema.Example = some raw) (hdec : json.UnmarshalDoc raw = .ok base) :
    (∃ d : Doc,
      Doc.ApplyToSchema json m schema
        = (json.MarshalDoc d).map (fun b => schema.setExample b) ∧
      (m.Availability = [] → d.Availability = base.Availability) ∧
      (m.Link.len = 0 → d.Link = base.Link)) ∧
    (m = ⟨[], some ["a".toList]⟩ → base = ⟨"prod".toList, some []⟩ →
      Doc.ApplyToSchema json m schema
        = (json.MarshalDoc ⟨"prod".toList, some ["a".toList]⟩).map
          (fun b => schema.setExample b)) := by
  refine ⟨⟨_, ApplyToSchema_of_decoded json m base schema raw hslot hdec, ?_, ?_⟩, ?_⟩
  · intro hm
    simp [hm]
  · intro hm
    simp [hm]
  · rintro rfl rfl
    exact ApplyToSchema_of_decoded json _ _ schema raw hslot hdec

/-- The example of C2 with the sample codec: the slot ends with the encoding of
`{availability: "prod", links: ["a"]}`. -/
theorem ApplyToSchema_keeps_unset_fields_witness :
    (Doc.ApplyToSchema sampleJSON ⟨[], some ["a".toList]⟩
        (JSONSchemaProps.zero.setExample
          "\x7b\"Availability\":\"prod\",\"Link\":[]\x7d".toList)).map
        (fun schema => schema.Example)
      = .ok (some "\x7b\"Availability\":\"prod\",\"Link\":[\"a\"]\x7d".toList) := by
  have h := (ApplyToSchema_keeps_unset_fields sampleJSON ⟨[], some ["a".toList]⟩
    ⟨"prod".toList, some []⟩
    (JSONSchemaProps.zero.setExample "\x7b\"Availability\":\"prod\",\"Link\":[]\x7d".toList)
    "\x7b\"Availability\":\"prod\",\"Link\":[]\x7d".toList rfl rfl).2 rfl rfl
  rw [h]
  rfl

/-! ## The order of strings and `sortStrings` -/

theorem char_toNat_inj {a b : Char} (h : a.toNat = b.toNat) : a = b := by
  rw [← Char.ofNat_toNat a, ← Char.ofNat_toNat b, h]

theorem strLt_irrefl (a : Str) : strLt a a = false := by
  induction a with
  | nil => rfl
  | cons c cs ih => simp [strLt, ih]

theorem strLt_trans {a b c : Str} (hab : strLt a b = true) (hbc : strLt b c = true) :
    strLt a c = true := by
  induction a generalizing b c with
  | nil =>
    cases c with
    | nil => cases b <;> simp [strLt] at hbc
    | cons z zs => rfl
  | cons x xs ih =>
    cases b with
    | nil => simp [strLt] at hab
    | cons y ys =>
      cases c with
      | nil => simp [strLt] at hbc
      | cons z zs =>
        simp only [strLt, Bool.or_eq_true, decide_eq_true_eq, Bool.and_eq_true] at hab hbc ⊢
        rcases hab with h1 | ⟨h1, h1'⟩
        · rcases hbc with h2 | ⟨h2, _⟩
          · exact Or.inl (by omega)
          · exact Or.inl (by omega)
        · rcases hbc with h2 | ⟨h2, h2'⟩
          · exact Or.inl (by omega)
          · exact Or.inr ⟨by omega, ih h1' h2'⟩

theorem strLt_total {a b : Str} (hab : strLt a b = false) (hne : a ≠ b) : strLt b a = true := by
  induction a generalizing b with
  | nil =>
    cases b with
    | nil => exact absurd rfl hne
    | cons y ys => simp [strLt] at hab
  | cons x xs ih =>
    cases b with
    | nil => rfl
    | cons y ys =>
      simp only [strLt, Bool.or_eq_false_iff, decide_eq_false_iff_not, Bool.and_eq_false_imp,
        decide_eq_true_eq] at hab
      simp only [strLt, Bool.or_eq_true, decide_eq_true_eq, Bool.and_eq_true]
      by_cases hxy : x.toNat = y.toNat
      · have hc : x = y := char_toNat_inj hxy
        subst hc
        have hne2 : xs ≠ ys := fun h => hne (by rw [h])
        exact Or.inr ⟨rfl, ih (hab.2 rfl) hne2⟩
      · exact Or.inl (by omega)

instance strLt_isIrrefl : IsIrrefl Str (fun a b => strLt a b = true) :=
  ⟨fun a h => by rw [strLt_irrefl] at h; exact Bool.false_ne_true h⟩

instance strLt_isAntisymm : IsAntisymm Str (fun a b => strLt a b = true) :=
  ⟨fun a b hab hba => by
    have h := strLt_trans hab hba
    rw [strLt_irrefl] at h
    exact absurd h Bool.false_ne_true⟩

theorem mem_insertSorted (x y : Str) (l : List Str) :
    y ∈ insertSorted x l ↔ y = x ∨ y ∈ l := by
  induction l with
  | nil => simp [insertSorted]
  | cons z zs ih =>
    unfold insertSorted
    split
    · simp only [List.mem_cons, ih]
      tauto
    · simp

theorem mem_sortStrings (y : Str) (l : List Str) : y ∈ sortStrings l ↔ y ∈ l := by
  induction l with
  | nil => simp [sortStrings]
  | cons x xs ih => simp [sortStrings, mem_insertSorted, ih]

theorem insertSorted_pairwise (x : Str) (l : List Str) (hx : x ∉ l)
    (hl : l.Pairwise (fun a b => strLt a b = true)) :
    (insertSorted x l).Pairwise (fun a b => strLt a b = true) := by
  induction l with
  | nil => simp [insertSorted]
  | cons z zs ih =>
    have hz : x ≠ z := fun h => hx (by simp [h])
    have hzs : x ∉ zs := fun h => hx (by simp [h])
    rw [List.pairwise_cons] at hl
    unfold insertSorted
    split
    · rename_i hlt
      rw [List.pairwise_cons]
      refine ⟨fun a ha => ?_, ih hzs hl.2⟩
      rcases (mem_insertSorted x a zs).1 ha with rfl | ha
      · exact hlt
      · exact hl.1 a ha
    · rename_i hlt
      have hxz : strLt x z = true :=
        strLt_total (by simpa using hlt) (fun h => hz h.symm)
      rw [List.pairwise_cons]
      refine ⟨fun a ha => ?_, List.pairwise_cons.2 hl⟩
      rcases List.mem_cons.1 ha with rfl | ha
      · exact hxz
      · exact strLt_trans hxz (hl.1 a ha)

theorem sortStrings_pairwise (l : List Str) (hl : l.Nodup) :
    (sortStrings l).Pairwise (fun a b => strLt a b = true) := by
  induction l with
  | nil => simp [sortStrings]
  | cons x xs ih =>
    rw [List.nodup_cons] at hl
    exact insertSorted_pairwise x _ (fun h => hl.1 ((mem_sortStrings x xs).1 h)) (ih hl.2)

theorem ascending_unique (l₁ l₂ : List Str)
    (h₁ : l₁.Pairwise (fun a b => strLt a b = true))
    (h₂ : l₂.Pairwise (fun a b => strLt a b = true))
    (hmem : ∀ k, k ∈ l₁ ↔ k ∈ l₂) : l₁ = l₂ :=
  List.eq_of_perm_of_sorted ((List.perm_ext_iff_of_nodup h₁.nodup h₂.nodup).2 hmem) h₁ h₂

/-! ## Claims on the schema walk -/

theorem any_beq_iff_mem (l : List Str) (key : Str) :
    l.any (fun k => k == key) = true ↔ key ∈ l := by
  induction l with
  | nil => simp
  | cons x xs ih =>
    simp only [List.any_cons, Bool.or_eq_true, ih, List.mem_cons, beq_iff_eq]
    constructor
    · rintro (h | h)
      · exact Or.inl h.symm
      · exact Or.inr h
    · rintro (h | h)
      · exact Or.inl h.symm
      · exact Or.inr h

/-- C8 as stated fails: a parent of type `object` that carries an items schema
requiring `y` is not an array and does not itself require `y`, yet
`hasRequired` returns true for `y`. -/
theorem hasRequired_array_counterexample :
    JSONSchemaProps.Typ
        (.mk [] "object".toList none none [] [] (some (some
          (.mk [] "object".toList none none [] ["y".toList] none [] [] none))) [] [] none)
      ≠ "array".toList ∧
    "y".toList ∉ JSONSchemaProps.Required
        (.mk [] "object".toList none none [] [] (some (some
          (.mk [] "object".toList none none [] ["y".toList] none [] [] none))) [] [] none) ∧
    hasRequired
        (.mk [] "object".toList none none [] [] (some (some
          (.mk [] "object".toList none none [] ["y".toList] none [] [] none))) [] [] none)
        "y".toList = .ok true := by
  decide

/-- C8 (amended): the Required flag `hasRequired(parent, key)` is true if and
only if the key is in the parent's required set, or the parent carries an
items schema and the key is in the required set of that items schema; the
type of the parent plays no part, the flag is the same for every type.  The
call returns a flag for every parent except one whose `Items` has a nil
`Schema`. -/
theorem hasRequired_true_iff (parent : JSONSchemaProps) (key : Str) :
    (hasRequired parent key = .ok true ↔
      key ∈ parent.Required ∨
        ∃ items, parent.Items = some (some items) ∧ key ∈ items.Required) ∧
    (∀ t : Str, hasRequired (parent.setTyp t) key = hasRequired parent key) ∧
    (parent.Items ≠ some none →
      hasRequired parent key = .ok true ∨ hasRequired parent key = .ok false) := by
  refine ⟨?_, fun t => by cases parent; rfl, ?_⟩
  · unfold hasRequired
    by_cases h1 : key ∈ parent.Required
    · simp [(any_beq_iff_mem _ _).2 h1, h1]
    · have h1' : ¬ (parent.Required.any (fun k => k == key) = true) :=
        fun h => h1 ((any_beq_iff_mem _ _).1 h)
      simp only [h1', if_false, h1, false_or]
      cases hI : parent.Items with
      | none => simp
      | some o =>
        cases o with
        | none => simp
        | some items =>
          by_cases h2 : key ∈ items.Required
          · simp [(any_beq_iff_mem _ _).2 h2, h2]
          · have h2' : ¬ (items.Required.any (fun k => k == key) = true) :=
              fun h => h2 ((any_beq_iff_mem _ _).1 h)
            simp [h2', h2]
  · unfold hasRequired
    intro hI
    split
    · exact Or.inl rfl
    · split
      · exact Or.inr rfl
      · rename_i h
        exact absurd h hI
      · split
        · exact Or.inl rfl
        · exact Or.inr rfl

/-- An instance of the amended C8: `y`, required by the items schema, is required below
a parent of type `array` and below a parent of type `object` alike, and `x`, required
nowhere, is not. -/
theorem hasRequired_true_iff_witness :
    hasRequired
        (.mk [] "array".toList none none [] [] (some (some
          (.mk [] "object".toList none none [] ["y".toList] none [] [] none))) [] [] none)
        "y".toList = .ok true ∧
    hasRequired
        (.mk [] "object".toList none none [] [] (some (some
          (.mk [] "object".toList none none [] ["y".toList] none [] [] none))) [] [] none)
        "y".toList = .ok true ∧
    hasRequired
        (.mk [] "array".toList none none [] [] (some (some
          (.mk [] "object".toList none none [] ["y".toList] none [] [] none))) [] [] none)
        "x".toList = .ok false := by
  refine ⟨(hasRequired_true_iff _ _).1.2 (Or.inr ⟨_, rfl, by decide⟩),
    (hasRequired_true_iff _ _).1.2 (Or.inr ⟨_, rfl, by decide⟩), ?_⟩
  refine Or.resolve_left ((hasRequired_true_iff _ _).2.2 (by simp [JSONSchemaProps.Items]))
    (fun h => ?_)
  rcases (hasRequired_true_iff _ _).1.1 h with h | ⟨items, hi, hk⟩
  · exact absurd h (by decide)
  · have hi' : items = .mk [] "object".toList none none [] ["y".toList] none [] [] none := by
      simp only [JSONSchemaProps.Items, Option.some.injEq] at hi
      exact hi.symm
    subst hi'
    exact absurd hk (by decide)

theorem Trace.seq_nothing (t : Trace) : t.seq Trace.nothing = t := by
  obtain ⟨out, panic⟩ := t
  cases panic <;> simp [Trace.seq, Trace.nothing]

theorem docChild_eq (env : Env) (level : Nat) (jsonpath k : Str) (parent : JSONSchemaProps)
    (props : List (Str × JSONSchemaProps)) :
    docChild env level jsonpath k parent props =
      match propAt k props with
      | some child => WriteReferenceDoc env level jsonpath k parent child
      | none => Trace.nothing := by
  induction props with
  | nil => simp [docChild, propAt]
  | cons e rest ih =>
    obtain ⟨k', c⟩ := e
    by_cases h : k' = k
    · simp [docChild, propAt, h]
    · simp [docChild, propAt, h, ih]

set_option maxHeartbeats 4000000 in
theorem WriteReferenceDoc_eq (env : Env) (level : Nat) (jsonpath key : Str)
    (parent : JSONSchemaProps) (d t : Str) (mx mn : Option FloatPtr) (p : Str) (r : List Str)
    (items : Option (Option JSONSchemaProps)) (props : List (Str × JSONSchemaProps))
    (e : List Raw) (x : Option Raw) :
    WriteReferenceDoc env level jsonpath key parent (.mk d t mx mn p r items props e x) =
    if jsonpath = ".metadata".toList ∨ jsonpath = ".status".toList then Trace.nothing
    else
      let node : JSONSchemaProps :=
        if e.length > 0 then .mk d "enum".toList mx mn p r items props e x
        else .mk d t mx mn p r items props e x
      match hasRequired parent key with
      | .ok required =>
        let entry := newEntry level jsonpath key required node
        if node.Typ = "array".toList then
          match items with
          | some (some (.mk _ _ _ _ _ _ _ iprops _ _)) =>
            let node := node.setProperties iprops
            let jsonpath := jsonpath ++ "[]".toList
            if iprops.length = 0 then writeEntry env jsonpath entry node
            else
              (writeEntry env jsonpath entry node).seq
                (Trace.seqAll ((sortStrings (mapKeys iprops)).map fun k =>
                  docChild env (level + 1) (jsonpath ++ ".".toList ++ k) k node iprops))
          | _ => ⟨[], some "invalid memory address or nil pointer dereference"⟩
        else
          if props.length = 0 then writeEntry env jsonpath entry node
          else
            (writeEntry env jsonpath entry node).seq
              (Trace.seqAll ((sortStrings (mapKeys props)).map fun k =>
                docChild env (level + 1) (jsonpath ++ ".".toList ++ k) k node props))
      | .error msg => ⟨[], some msg⟩
      | .panic msg => ⟨[], some msg⟩ := by
  rw [WriteReferenceDoc]

theorem childTrace_eq_docChild (env : Env) (level : Nat) (jsonpath : Str)
    (node : JSONSchemaProps) :
    childTrace env level jsonpath node =
      fun k => docChild env (level + 1) (jsonpath ++ ".".toList ++ k) k node node.Properties := by
  funext k
  rw [docChild_eq, childTrace]

theorem WriteReferenceDoc_step (env : Env) (level : Nat) (jsonpath key : Str)
    (parent node node' : JSONSchemaProps) (required : Bool)
    (hvisit : jsonpath ≠ ".metadata".toList ∧ jsonpath ≠ ".status".toList)
    (hreq : hasRequired parent key = .ok required)
    (hnode : walkedNode node = some node') :
    WriteReferenceDoc env level jsonpath key parent node =
      (writeEntry env (walkedPath jsonpath node)
          (newEntry level jsonpath key required (typedNode node)) node').seq
        (Trace.seqAll ((sortStrings (mapKeys node'.Properties)).map
          (childTrace env level (walkedPath jsonpath node) node'))) := by
  obtain ⟨d, t, mx, mn, p, r, items, props, e, x⟩ := node
  rw [WriteReferenceDoc_eq, childTrace_eq_docChild]
  simp only [hvisit.1, hvisit.2, or_self, if_false, hreq]
  by_cases he : e.length > 0
  · simp only [walkedNode, walkedPath, typedNode, JSONSchemaProps.Enum, he, if_true,
      JSONSchemaProps.setTyp, JSONSchemaProps.Typ, JSONSchemaProps.Items] at hnode ⊢
    simp only [show ¬ ("enum".toList = "array".toList) by decide, if_false,
      Option.some.injEq] at hnode ⊢
    subst hnode
    by_cases hp : props.length = 0
    · have hp' : props = [] := List.length_eq_zero.1 hp
      subst hp'
      simp [JSONSchemaProps.Properties, mapKeys, sortStrings, Trace.seqAll, Trace.seq_nothing]
    · simp only [hp, if_false]
      rfl
  · simp only [walkedNode, walkedPath, typedNode, JSONSchemaProps.Enum, he, if_false,
      JSONSchemaProps.Typ, JSONSchemaProps.Items] at hnode ⊢
    by_cases ht : t = "array".toList
    · simp only [ht, if_true] at hnode ⊢
      match items, hnode with
      | some (some (.mk d2 t2 mx2 mn2 p2 r2 i2 iprops e2 x2)), hnode =>
        simp only [Option.some.injEq] at hnode
        subst hnode
        simp only [JSONSchemaProps.Properties, JSONSchemaProps.setProperties]
        by_cases hp : iprops.length = 0
        · have hp' : iprops = [] := List.length_eq_zero.1 hp
          subst hp'
          simp [mapKeys, sortStrings, Trace.seqAll, Trace.seq_nothing]
        · simp only [hp, if_false]
    · simp only [ht, if_false, Option.some.injEq] at hnode ⊢
      subst hnode
      by_cases hp : props.length = 0
      · have hp' : props = [] := List.length_eq_zero.1 hp
        subst hp'
        simp [JSONSchemaProps.Properties, mapKeys, sortStrings, Trace.seqAll, Trace.seq_nothing]
      · simp only [hp, if_false]
        rfl

/-! ## Lemmas on traces -/

theorem Trace.mem_seq_out {a b : Trace} {c : Chunk} (h : c ∈ (a.seq b).out) :
    c ∈ a.out ∨ c ∈ b.out := by
  obtain ⟨ao, ap⟩ := a
  cases ap with
  | some msg => exact Or.inl (by simpa [Trace.seq] using h)
  | none => simpa [Trace.seq] using h

theorem Trace.mem_seqAll_out {ts : List Trace} {c : Chunk} (h : c ∈ (Trace.seqAll ts).out) :
    ∃ t ∈ ts, c ∈ t.out := by
  induction ts with
  | nil => simp [Trace.seqAll, Trace.nothing] at h
  | cons t ts ih =>
    rcases Trace.mem_seq_out h with h | h
    · exact ⟨t, by simp, h⟩
    · obtain ⟨u, hu, hc⟩ := ih h
      exact ⟨u, by simp [hu], hc⟩

theorem Trace.seq_out_of_panic_none {a b : Trace} (h : (a.seq b).panic = none) :
    a.panic = none ∧ b.panic = none ∧ (a.seq b).out = a.out ++ b.out := by
  obtain ⟨ao, ap⟩ := a
  cases ap with
  | some msg => simp [Trace.seq] at h
  | none => simpa [Trace.seq] using h

theorem Trace.seqAll_out_of_panic_none {ts : List Trace} (h : (Trace.seqAll ts).panic = none) :
    (Trace.seqAll ts).out = ts.flatMap (fun t => t.out) := by
  induction ts with
  | nil => simp [Trace.seqAll, Trace.nothing]
  | cons t ts ih =>
    obtain ⟨-, h2, h3⟩ := Trace.seq_out_of_panic_none h
    rw [Trace.seqAll, h3, ih h2]
    simp

theorem mem_mapKeys (props : List (Str × JSONSchemaProps)) (k : Str) :
    k ∈ mapKeys props ↔ ∃ c, (k, c) ∈ props := by
  rw [mapKeys, List.mem_dedup, List.mem_map]
  constructor
  · rintro ⟨⟨k', c⟩, h, rfl⟩
    exact ⟨c, h⟩
  · rintro ⟨c, h⟩
    exact ⟨(k, c), h, rfl⟩

theorem propAt_mem {k : Str} {props : List (Str × JSONSchemaProps)} {c : JSONSchemaProps}
    (h : propAt k props = some c) : (k, c) ∈ props := by
  induction props with
  | nil => simp [propAt] at h
  | cons e rest ih =>
    obtain ⟨k', c'⟩ := e
    by_cases hk : k' = k
    · simp [propAt, hk] at h
      simp [hk, h]
    · simp [propAt, hk] at h
      simp [ih h]

theorem propAt_isSome_of_mem {k : Str} {props : List (Str × JSONSchemaProps)}
    {c : JSONSchemaProps} (h : (k, c) ∈ props) : ∃ c', propAt k props = some c' := by
  induction props with
  | nil => simp at h
  | cons e rest ih =>
    obtain ⟨k', c'⟩ := e
    by_cases hk : k' = k
    · exact ⟨c', by simp [propAt, hk]⟩
    · have : (k, c) ∈ rest := by
        rcases List.mem_cons.1 h with h | h
        · exact absurd (congrArg Prod.fst h).symm hk
        · exact h
      obtain ⟨c'', hc⟩ := ih this
      exact ⟨c'', by simp [propAt, hk, hc]⟩

/-- C7: a node that `WriteReferenceDoc` visits documents its children (the
properties it descends into) by one recursive call per key, the calls being
made in strictly ascending order of the keys; the list of keys is fixed by the
set of keys alone, whatever order the properties mapping presents them in; and
the whole output of one child's call, descendants included, precedes the
output of the next child's call. -/
theorem WriteReferenceDoc_children_ascending (env : Env) (level : Nat) (jsonpath key : Str)
    (parent node node' : JSONSchemaProps) (required : Bool)
    (hvisit : jsonpath ≠ ".metadata".toList ∧ jsonpath ≠ ".status".toList)
    (hreq : hasRequired parent key = .ok required)
    (hnode : walkedNode node = some node') :
    ∃ keys : List Str,
      keys.Pairwise (fun a b => strLt a b = true) ∧
      (∀ k, k ∈ keys ↔ ∃ c, (k, c) ∈ node'.Properties) ∧
      (∀ keys' : List Str, keys'.Pairwise (fun a b => strLt a b = true) →
        (∀ k, k ∈ keys' ↔ ∃ c, (k, c) ∈ node'.Properties) → keys' = keys) ∧
      WriteReferenceDoc env level jsonpath key parent node =
        (writeEntry env (walkedPath jsonpath node)
            (newEntry level jsonpath key required (typedNode node)) node').seq
          (Trace.seqAll (keys.map (childTrace env level (walkedPath jsonpath node) node'))) ∧
      ((WriteReferenceDoc env level jsonpath key parent node).panic = none →
        (WriteReferenceDoc env level jsonpath key parent node).out =
          (writeEntry env (walkedPath jsonpath node)
              (newEntry level jsonpath key required (typedNode node)) node').out ++
            keys.flatMap
              (fun k => (childTrace env level (walkedPath jsonpath node) node' k).out)) := by
  have hsorted : (sortStrings (mapKeys node'.Properties)).Pairwise
      (fun a b => strLt a b = true) :=
    sortStrings_pairwise _ (List.nodup_dedup _)
  have hmem : ∀ k, k ∈ sortStrings (mapKeys node'.Properties) ↔ ∃ c, (k, c) ∈ node'.Properties :=
    fun k => by rw [mem_sortStrings, mem_mapKeys]
  have hstep := WriteReferenceDoc_step env level jsonpath key parent node node' required
    hvisit hreq hnode
  refine ⟨sortStrings (mapKeys node'.Properties), hsorted, hmem, ?_, hstep, ?_⟩
  · intro keys' hs' hm'
    exact ascending_unique keys' _ hs' hsorted (fun k => by rw [hm' k, hmem k])
  · intro hp
    rw [hstep] at hp ⊢
    obtain ⟨-, h2, h3⟩ := Trace.seq_out_of_panic_none hp
    rw [h3, Trace.seqAll_out_of_panic_none h2, List.flatMap_map]

/-- An instance of C7: the properties `c`, `a`, `b` of a root object are visited as `a`, `b`, `c`. -/
theorem WriteReferenceDoc_children_ascending_witness :
    (∃ keys : List Str,
      keys.Pairwise (fun a b => strLt a b = true) ∧
      (∀ k, k ∈ keys ↔ ∃ c, (k, c) ∈ [("c".toList, sampleLeaf "string"),
        ("a".toList, sampleLeaf "string"), ("b".toList, sampleLeaf "integer")])) ∧
    documentedPaths (WriteReferenceDoc sampleEnv 1 [] "NAIS application".toList
      (sampleObject [] [("c".toList, sampleLeaf "string"), ("a".toList, sampleLeaf "string"),
        ("b".toList, sampleLeaf "integer")])
      (sampleObject [] [("c".toList, sampleLeaf "string"), ("a".toList, sampleLeaf "string"),
        ("b".toList, sampleLeaf "integer")]))
      = [".a".toList, ".b".toList, ".c".toList] := by
  obtain ⟨keys, h1, h2, -⟩ := WriteReferenceDoc_children_ascending sampleEnv 1 []
    "NAIS application".toList
    (sampleObject [] [("c".toList, sampleLeaf "string"), ("a".toList, sampleLeaf "string"),
      ("b".toList, sampleLeaf "integer")])
    (sampleObject [] [("c".toList, sampleLeaf "string"), ("a".toList, sampleLeaf "string"),
      ("b".toList, sampleLeaf "integer")])
    (sampleObject [] [("c".toList, sampleLeaf "string"), ("a".toList, sampleLeaf "string"),
      ("b".toList, sampleLeaf "integer")])
    false (by decide) rfl rfl
  exact ⟨⟨keys, h1, h2⟩, by decide⟩

/-! ## The first chunk of a call -/

theorem completed_path (env : Env) (dv : Result Value) (node : JSONSchemaProps)
    (entry : ExtDoc) :
    (setAvailabilityLink env node (setEnum env node (setDefault env dv entry))).Path = entry.Path ∧
    (setAvailabilityLink env node (setEnum env node (setDefault env dv entry))).Title
      = entry.Title := by
  unfold setAvailabilityLink setEnum setDefault
  constructor <;> (repeat' split) <;> rfl

theorem writeEntry_out (env : Env) (jsonpath : Str) (entry : ExtDoc) (node : JSONSchemaProps) :
    ((writeEntry env jsonpath entry node).out = [] ∧
        (jsonpath ≠ [] → (writeEntry env jsonpath entry node).panic ≠ none)) ∨
      ∃ e rest, (writeEntry env jsonpath entry node).out = .entry e :: rest ∧
        e.Path = entry.Path ∧ e.Title = entry.Title ∧ ∀ e', Chunk.entry e' ∉ rest := by
  unfold writeEntry
  split
  · exact Or.inl ⟨rfl, fun _ => by simp⟩
  · by_cases hj : jsonpath.length > 0
    · simp only [hj, if_true]
      right
      obtain ⟨h1, h2⟩ := completed_path env
        (getValueFromStruct (Trim jsonpath ".".toList) env.defaultApplication) node entry
      split
      · exact ⟨_, _, rfl, h1, h2, by simp⟩
      · exact ⟨_, _, rfl, h1, h2, by simp⟩
      · exact ⟨_, _, rfl, h1, h2, by simp⟩
    · simp only [hj, if_false]
      exact Or.inl ⟨rfl, fun h => absurd (List.length_pos.2 h) hj⟩

theorem walkedNode_properties {node node' : JSONSchemaProps} (h : walkedNode node = some node') :
    node'.Properties = node.Properties ∨
      ∃ items, node.Items = some (some items) ∧ (typedNode node).Typ = "array".toList ∧
        node'.Properties = items.Properties := by
  obtain ⟨d, t, mx, mn, p, r, items, props, e, x⟩ := node
  unfold walkedNode at h
  split at h
  · rename_i harr
    split at h
    · rename_i it hit
      simp only [Option.some.injEq] at h
      subst h
      refine Or.inr ⟨it, hit, harr, ?_⟩
      unfold typedNode
      split <;> rfl
    · simp at h
  · simp only [Option.some.injEq] at h
    subst h
    left
    unfold typedNode
    split <;> rfl

theorem WriteReferenceDoc_skipped (env : Env) (level : Nat) (jsonpath key : Str)
    (parent node : JSONSchemaProps)
    (h : jsonpath = ".metadata".toList ∨ jsonpath = ".status".toList) :
    WriteReferenceDoc env level jsonpath key parent node = Trace.nothing := by
  obtain ⟨d, t, mx, mn, p, r, items, props, e, x⟩ := node
  rw [WriteReferenceDoc_eq, if_pos h]

theorem WriteReferenceDoc_aborted (env : Env) (level : Nat) (jsonpath key : Str)
    (parent node : JSONSchemaProps)
    (h : (∀ required, hasRequired parent key ≠ .ok required) ∨ walkedNode node = none) :
    (WriteReferenceDoc env level jsonpath key parent node).out = [] := by
  obtain ⟨d, t, mx, mn, p, r, items, props, e, x⟩ := node
  rw [WriteReferenceDoc_eq]
  split
  · rfl
  · cases hreq : hasRequired parent key with
    | error msg => rfl
    | panic msg => rfl
    | ok required =>
      rcases h with h | h
      · exact absurd hreq (h required)
      · simp only
        by_cases he : e.length > 0
        · simp [walkedNode, typedNode, JSONSchemaProps.Enum, he, JSONSchemaProps.setTyp,
            JSONSchemaProps.Typ] at h
        · simp only [walkedNode, typedNode, JSONSchemaProps.Enum, he, if_false,
            JSONSchemaProps.Typ, JSONSchemaProps.Items] at h ⊢
          by_cases ht : t = "array".toList
          · simp only [ht, if_true] at h ⊢
            match items, h with
            | none, _ => rfl
            | some none, _ => rfl
          · have ht' : ¬ t = ['a', 'r', 'r', 'a', 'y'] := ht
            simp [ht'] at h

theorem WriteReferenceDoc_head (env : Env) (level : Nat) (jsonpath key : Str)
    (parent node : JSONSchemaProps) (hpath : jsonpath ≠ []) :
    (WriteReferenceDoc env level jsonpath key parent node).out = [] ∨
      ∃ e rest, (WriteReferenceDoc env level jsonpath key parent node).out = .entry e :: rest ∧
        e.Path = jsonpath ∧ e.Title = key := by
  by_cases hskip : jsonpath = ".metadata".toList ∨ jsonpath = ".status".toList
  · rw [WriteReferenceDoc_skipped env level jsonpath key parent node hskip]
    exact Or.inl rfl
  · cases hreq : hasRequired parent key with
    | error msg =>
      exact Or.inl (WriteReferenceDoc_aborted _ _ _ _ _ _ (Or.inl (by simp [hreq])))
    | panic msg =>
      exact Or.inl (WriteReferenceDoc_aborted _ _ _ _ _ _ (Or.inl (by simp [hreq])))
    | ok required =>
      cases hnode : walkedNode node with
      | none => exact Or.inl (WriteReferenceDoc_aborted _ _ _ _ _ _ (Or.inr hnode))
      | some node' =>
        rw [WriteReferenceDoc_step env level jsonpath key parent node node' required
          ⟨fun h => hskip (Or.inl h), fun h => hskip (Or.inr h)⟩ hreq hnode]
        have hwp : walkedPath jsonpath node ≠ [] := by
          unfold walkedPath
          split
          · simp [hpath]
          · exact hpath
        rcases writeEntry_out env (walkedPath jsonpath node)
          (newEntry level jsonpath key required (typedNode node)) node' with
          ⟨h1, h2⟩ | ⟨e, rest, h1, h2, h3, -⟩
        · left
          have hp := h2 hwp
          revert h1 hp
          generalize writeEntry env (walkedPath jsonpath node)
            (newEntry level jsonpath key required (typedNode node)) node' = own
          obtain ⟨oo, op⟩ := own
          intro h1 hp
          cases op with
          | none => exact absurd rfl hp
          | some msg => simpa [Trace.seq] using h1
        · right
          revert h1
          generalize writeEntry env (walkedPath jsonpath node)
            (newEntry level jsonpath key required (typedNode node)) node' = own
          generalize Trace.seqAll _ = kids
          obtain ⟨oo, op⟩ := own
          intro h1
          simp only at h1
          subst h1
          cases op with
          | none => exact ⟨e, rest ++ kids.out, by simp [Trace.seq], h2, h3⟩
          | some msg => exact ⟨e, rest, by simp [Trace.seq], h2, h3⟩

theorem setProperties_Properties (node : JSONSchemaProps) (ps : List (Str × JSONSchemaProps)) :
    (node.setProperties ps).Properties = ps := by
  cases node; rfl

theorem typedNode_of_no_enum (node : JSONSchemaProps) (h : node.Enum = []) :
    typedNode node = node := by
  simp [typedNode, h]

/-- C9 as stated fails: the node `a` of type `array` carries an enum value and
an items schema with the properties `x` and `y`; `WriteReferenceDoc` sets its
type to `enum` before the test for an array, so only the entry `.a` is
written, and neither `.a[].x` nor `.a[].y`. -/
theorem WriteReferenceDoc_array_enum_counterexample :
    JSONSchemaProps.Typ
        (.mk [] "array".toList none none [] [] (some (some (sampleObject []
          [("x".toList, sampleLeaf "string"), ("y".toList, sampleLeaf "string")])))
          [] ["\"v\"".toList] none)
      = "array".toList ∧
    documentedPaths (WriteReferenceDoc sampleEnv 2 ".a".toList "a".toList
      (sampleObject [] [])
      (.mk [] "array".toList none none [] [] (some (some (sampleObject []
        [("x".toList, sampleLeaf "string"), ("y".toList, sampleLeaf "string")])))
        [] ["\"v\"".toList] none))
      = [".a".toList] := by
  decide

/-- C9 (amended): for a node of type `array` without enum values that
`WriteReferenceDoc` visits at path `p` and that has an items schema, the
children documented are exactly the properties of the items schema, visited in
sorted order, and the child with key `k` is documented by the call with path
`p ++ "[]" ++ "." ++ k`, whose output, when there is one, starts with the
entry carrying that path. -/
theorem WriteReferenceDoc_array_children (env : Env) (level : Nat) (p key : Str)
    (parent node items : JSONSchemaProps) (required : Bool)
    (hvisit : p ≠ ".metadata".toList ∧ p ≠ ".status".toList)
    (hreq : hasRequired parent key = .ok required)
    (htyp : node.Typ = "array".toList) (henum : node.Enum = [])
    (hitems : node.Items = some (some items)) :
    WriteReferenceDoc env level p key parent node =
      (writeEntry env (p ++ "[]".toList) (newEntry level p key required node)
          (node.setProperties items.Properties)).seq
        (Trace.seqAll ((sortStrings (mapKeys items.Properties)).map fun k =>
          childTrace env level (p ++ "[]".toList) (node.setProperties items.Properties) k)) ∧
    (∀ k, k ∈ sortStrings (mapKeys items.Properties) ↔ ∃ c, (k, c) ∈ items.Properties) ∧
    (∀ k, k ∈ sortStrings (mapKeys items.Properties) →
      ∃ child, propAt k items.Properties = some child ∧
        childTrace env level (p ++ "[]".toList) (node.setProperties items.Properties) k =
          WriteReferenceDoc env (level + 1) (p ++ "[]".toList ++ ".".toList ++ k) k
            (node.setProperties items.Properties) child ∧
        ∀ e rest,
          (WriteReferenceDoc env (level + 1) (p ++ "[]".toList ++ ".".toList ++ k) k
            (node.setProperties items.Properties) child).out = .entry e :: rest →
          e.Path = p ++ "[]".toList ++ ".".toList ++ k ∧ e.Title = k) := by
  have hty : typedNode node = node := typedNode_of_no_enum node henum
  have hnode : walkedNode node = some (node.setProperties items.Properties) := by
    simp only [walkedNode, hty, htyp, if_true, hitems]
  have hpath : walkedPath p node = p ++ "[]".toList := by
    simp only [walkedPath, hty, htyp, if_true]
  have hstep := WriteReferenceDoc_step env level p key parent node _ required hvisit hreq hnode
  rw [hpath, hty, setProperties_Properties] at hstep
  have hmem : ∀ k, k ∈ sortStrings (mapKeys items.Properties) ↔
      ∃ c, (k, c) ∈ items.Properties := fun k => by rw [mem_sortStrings, mem_mapKeys]
  refine ⟨hstep, hmem, ?_⟩
  intro k hk
  obtain ⟨c, hc⟩ := (hmem k).1 hk
  obtain ⟨child, hchild⟩ := propAt_isSome_of_mem hc
  refine ⟨child, hchild, ?_, ?_⟩
  · simp only [childTrace, setProperties_Properties, hchild]
  · intro e rest hout
    rcases WriteReferenceDoc_head env (level + 1) (p ++ "[]".toList ++ ".".toList ++ k) k
      (node.setProperties items.Properties) child (by simp) with h | ⟨e', rest', h, h1, h2⟩
    · rw [h] at hout
      cases hout
    · rw [h] at hout
      cases hout
      exact ⟨h1, h2⟩

/-- An instance of the amended C9: the array `a` at path `.a` documents the properties `x` and `y` of
its items schema under `.a[].x` and `.a[].y`. -/
theorem WriteReferenceDoc_array_children_witness :
    documentedPaths (WriteReferenceDoc sampleEnv 2 ".a".toList "a".toList
      (sampleObject [] [])
      (sampleArray (sampleObject ["y".toList]
        [("y".toList, sampleLeaf "string"), ("x".toList, sampleLeaf "integer")])))
      = [".a".toList, ".a[].x".toList, ".a[].y".toList] ∧
    ∀ k, k ∈ sortStrings (mapKeys [("y".toList, sampleLeaf "string"),
      ("x".toList, sampleLeaf "integer")]) ↔
      ∃ c, (k, c) ∈ [("y".toList, sampleLeaf "string"), ("x".toList, sampleLeaf "integer")] :=
  ⟨by decide,
   (WriteReferenceDoc_array_children sampleEnv 2 ".a".toList "a".toList (sampleObject [] [])
      (sampleArray (sampleObject ["y".toList]
        [("y".toList, sampleLeaf "string"), ("x".toList, sampleLeaf "integer")]))
      (sampleObject ["y".toList]
        [("y".toList, sampleLeaf "string"), ("x".toList, sampleLeaf "integer")])
      false (by decide) rfl rfl rfl rfl).2.1⟩

/-! ## Induction over a schema tree -/

mutual
theorem schema_induction_node (M : JSONSchemaProps → Prop)
    (step : ∀ node : JSONSchemaProps,
      (∀ k child, (k, child) ∈ node.Properties → M child) →
      (∀ items, node.Items = some (some items) →
        ∀ k child, (k, child) ∈ items.Properties → M child) → M node) :
    ∀ node : JSONSchemaProps, M node
  | .mk _ _ _ _ _ _ items props _ _ =>
    step _ (fun k child h => schema_induction_props M step props k child h)
      (fun it hit k child h => schema_induction_items M step items it hit k child h)
theorem schema_induction_props (M : JSONSchemaProps → Prop)
    (step : ∀ node : JSONSchemaProps,
      (∀ k child, (k, child) ∈ node.Properties → M child) →
      (∀ items, node.Items = some (some items) →
        ∀ k child, (k, child) ∈ items.Properties → M child) → M node) :
    ∀ (props : List (Str × JSONSchemaProps)) (k : Str) (child : JSONSchemaProps),
      (k, child) ∈ props → M child
  | [], _, _, h => absurd h (List.not_mem_nil _)
  | (_, c) :: rest, k, child, h =>
    Or.elim (List.mem_cons.1 h)
      (fun heq =>
        have hc : child = c := congrArg Prod.snd heq
        hc ▸ schema_induction_node M step c)
      (fun hmem => schema_induction_props M step rest k child hmem)
theorem schema_induction_items (M : JSONSchemaProps → Prop)
    (step : ∀ node : JSONSchemaProps,
      (∀ k child, (k, child) ∈ node.Properties → M child) →
      (∀ items, node.Items = some (some items) →
        ∀ k child, (k, child) ∈ items.Properties → M child) → M node) :
    ∀ (items : Option (Option JSONSchemaProps)) (it : JSONSchemaProps),
      items = some (some it) →
      ∀ (k : Str) (child : JSONSchemaProps), (k, child) ∈ it.Properties → M child
  | some (some (.mk _ _ _ _ _ _ _ iprops _ _)), it, hit, k, child, h =>
    schema_induction_props M step iprops k child (by
      simp only [Option.some.injEq] at hit
      subst hit
      exact h)
  | none, _, hit, _, _, _ => absurd hit (by simp)
  | some none, _, hit, _, _, _ => absurd hit (by simp)
end

theorem mem_documentedPaths (t : Trace) (q : Str) :
    q ∈ documentedPaths t ↔ ∃ e, Chunk.entry e ∈ t.out ∧ e.Path = q := by
  unfold documentedPaths
  rw [List.mem_filterMap]
  constructor
  · rintro ⟨c, hc, h⟩
    cases c with
    | entry e => exact ⟨e, hc, by simpa using h⟩
    | exampleBlock v => simp at h
  · rintro ⟨e, he, rfl⟩
    exact ⟨.entry e, he, rfl⟩

theorem WriteReferenceDoc_entry_paths (env : Env) (node : JSONSchemaProps) :
    ∀ (level : Nat) (jsonpath key : Str) (parent : JSONSchemaProps) (e : ExtDoc),
      Chunk.entry e ∈ (WriteReferenceDoc env level jsonpath key parent node).out →
      e.Path ≠ ".metadata".toList ∧ e.Path ≠ ".status".toList := by
  refine schema_induction_node
    (fun node => ∀ (level : Nat) (jsonpath key : Str) (parent : JSONSchemaProps) (e : ExtDoc),
      Chunk.entry e ∈ (WriteReferenceDoc env level jsonpath key parent node).out →
      e.Path ≠ ".metadata".toList ∧ e.Path ≠ ".status".toList) ?_ node
  intro node ihP ihI level jsonpath key parent e he
  by_cases hskip : jsonpath = ".metadata".toList ∨ jsonpath = ".status".toList
  · rw [WriteReferenceDoc_skipped env level jsonpath key parent node hskip] at he
    simp [Trace.nothing] at he
  · have hvisit : jsonpath ≠ ".metadata".toList ∧ jsonpath ≠ ".status".toList :=
      ⟨fun h => hskip (Or.inl h), fun h => hskip (Or.inr h)⟩
    cases hreq : hasRequired parent key with
    | error msg =>
      rw [WriteReferenceDoc_aborted _ _ _ _ _ _ (Or.inl (by simp [hreq]))] at he
      simp at he
    | panic msg =>
      rw [WriteReferenceDoc_aborted _ _ _ _ _ _ (Or.inl (by simp [hreq]))] at he
      simp at he
    | ok required =>
      cases hnode : walkedNode node with
      | none =>
        rw [WriteReferenceDoc_aborted _ _ _ _ _ _ (Or.inr hnode)] at he
        simp at he
      | some node' =>
        rw [WriteReferenceDoc_step env level jsonpath key parent node node' required
          hvisit hreq hnode] at he
        rcases Trace.mem_seq_out he with he | he
        · rcases writeEntry_out env (walkedPath jsonpath node)
            (newEntry level jsonpath key required (typedNode node)) node' with
            ⟨h1, -⟩ | ⟨e0, rest, h1, h2, -, h4⟩
          · rw [h1] at he
            simp at he
          · rw [h1] at he
            rcases List.mem_cons.1 he with h | h
            · have he0 : e = e0 := by simpa using h
              rw [he0, h2]
              exact hvisit
            · exact absurd h (h4 e)
        · obtain ⟨t, ht, hc⟩ := Trace.mem_seqAll_out he
          obtain ⟨k, -, rfl⟩ := List.mem_map.1 ht
          unfold childTrace at hc
          cases hprop : propAt k node'.Properties with
          | none =>
            rw [hprop] at hc
            simp [Trace.nothing] at hc
          | some child =>
            rw [hprop] at hc
            have hmem := propAt_mem hprop
            rcases walkedNode_properties hnode with hP | ⟨items, hit, -, hP⟩
            · rw [hP] at hmem
              exact ihP k child hmem _ _ _ _ e hc
            · rw [hP] at hmem
              exact ihI items hit k child hmem _ _ _ _ e hc

/-- C10 as stated fails: in the walk from the root with an empty path, the node
with key `metadata` below the property `foo` is documented, as `.foo.metadata`. -/
theorem WriteReferenceDoc_reserved_counterexample :
    documentedPaths (WriteReferenceDoc sampleEnv 1 [] "NAIS application".toList
      (sampleObject [] [("foo".toList,
        sampleObject [] [("metadata".toList, sampleLeaf "string")])])
      (sampleObject [] [("foo".toList,
        sampleObject [] [("metadata".toList, sampleLeaf "string")])]))
      = [".foo".toList, ".foo.metadata".toList] := by
  decide

/-- C10 (amended): the call of `WriteReferenceDoc` for a node whose path is
`.metadata` or `.status` (the child of the root under that key) returns at
once, so no block is written for that node nor for any of its descendants; and
in every walk no entry with the path `.metadata` or `.status` is written. -/
theorem WriteReferenceDoc_skips_reserved_paths (env : Env) (level : Nat) (jsonpath key : Str)
    (parent node : JSONSchemaProps) :
    (jsonpath = ".metadata".toList ∨ jsonpath = ".status".toList →
      WriteReferenceDoc env level jsonpath key parent node = Trace.nothing) ∧
    (∀ q ∈ documentedPaths (WriteReferenceDoc env level jsonpath key parent node),
      q ≠ ".metadata".toList ∧ q ≠ ".status".toList) := by
  refine ⟨WriteReferenceDoc_skipped env level jsonpath key parent node, ?_⟩
  intro q hq
  obtain ⟨e, he, rfl⟩ := (mem_documentedPaths _ _).1 hq
  exact WriteReferenceDoc_entry_paths env node level jsonpath key parent e he

/-- An instance of the amended C10: of the root properties `b`, `metadata` and `status`,
only `b` is documented, although `metadata` has a property of its own. -/
theorem WriteReferenceDoc_skips_reserved_paths_witness :
    WriteReferenceDoc sampleEnv 2 ".metadata".toList "metadata".toList
        (sampleObject [] [])
        (sampleObject [] [("name".toList, sampleLeaf "string")]) = Trace.nothing ∧
    documentedPaths (WriteReferenceDoc sampleEnv 1 [] "NAIS application".toList
      (sampleObject [] [])
      (sampleObject [] [("status".toList, sampleLeaf "object"),
        ("metadata".toList, sampleObject [] [("name".toList, sampleLeaf "string")]),
        ("b".toList, sampleLeaf "integer")]))
      = [".b".toList] :=
  ⟨(WriteReferenceDoc_skips_reserved_paths sampleEnv 2 ".metadata".toList "metadata".toList
      (sampleObject [] [])
      (sampleObject [] [("name".toList, sampleLeaf "string")])).1 (Or.inl rfl),
   by decide⟩

/-! ## Claims on the annotation merge, continued -/

/-- C16 as stated fails: with a slot that does not decode, `ApplyToSchema`
returns the decoding error instead of applying the override. -/
theorem ApplyToSchema_malformed_counterexample :
    sampleJSON.UnmarshalDoc "not json".toList = .error "invalid character" ∧
    (Doc.ApplyToSchema sampleJSON ⟨"dev".toList, none⟩
        (JSONSchemaProps.zero.setExample "not json".toList)).map
        (fun schema => schema.Example)
      = .error "invalid character" ∧
    (Doc.ApplyToSchema sampleJSON ⟨"dev".toList, none⟩
        (JSONSchemaProps.zero.setExample "not json".toList)).map
        (fun schema => schema.Example)
      ≠ .ok (some "\x7b\"Availability\":\"dev\",\"Link\":null\x7d".toList) :=
  ⟨rfl, rfl, fun h => by
    have h2 : (Except.error "invalid character" : Except String (Option Raw)) = _ := h
    cases h2⟩

/-- C16 (amended): when the slot holds a payload that does not decode,
`ApplyToSchema` fails with the decoding error, whatever the override; the
slot is not rewritten. -/
theorem ApplyToSchema_malformed_fails (json : JSON) (m : Doc) (schema : JSONSchemaProps)
    (raw : Raw) (err : String)
    (hslot : schema.Example = some raw) (hdec : json.UnmarshalDoc raw = .error err) :
    Doc.ApplyToSchema json m schema = .error err := by
  unfold Doc.ApplyToSchema
  simp only [hslot, hdec]

/-- An instance of the amended C16, with the sample codec. -/
theorem ApplyToSchema_malformed_fails_witness :
    Doc.ApplyToSchema sampleJSON ⟨"dev".toList, none⟩
      (JSONSchemaProps.zero.setExample "not json".toList) = .error "invalid character" :=
  ApplyToSchema_malformed_fails sampleJSON ⟨"dev".toList, none⟩
    (JSONSchemaProps.zero.setExample "not json".toList) "not json".toList
    "invalid character" rfl rfl

theorem mergoMerge_idem (d m : Doc) :
    ∃ d1, mergoMerge d m = .ok d1 ∧ mergoMerge d1 m = .ok d1 := by
  refine ⟨_, rfl, ?_⟩
  obtain ⟨da, dl⟩ := d
  obtain ⟨ma, ml⟩ := m
  have ha : (if (if da.length = 0 ∧ ma.length ≠ 0 then ma else da).length = 0 ∧
      ma.length ≠ 0 then ma else (if da.length = 0 ∧ ma.length ≠ 0 then ma else da))
      = (if da.length = 0 ∧ ma.length ≠ 0 then ma else da) := by
    by_cases h : da.length = 0 ∧ ma.length ≠ 0
    · rw [if_pos h]
      exact if_neg (fun h' => h.2 h'.1)
    · rw [if_neg h, if_neg h]
  have hl : (if (if dl.len = 0 ∧ ml.len ≠ 0 then ml else dl).len = 0 ∧
      ml.len ≠ 0 then ml else (if dl.len = 0 ∧ ml.len ≠ 0 then ml else dl))
      = (if dl.len = 0 ∧ ml.len ≠ 0 then ml else dl) := by
    by_cases h : dl.len = 0 ∧ ml.len ≠ 0
    · rw [if_pos h]
      exact if_neg (fun h' => h.2 h'.1)
    · rw [if_neg h, if_neg h]
  simp only [mergoMerge, ha, hl]

theorem setExample_Example (schema : JSONSchemaProps) (b : Raw) :
    (schema.setExample b).Example = some b := by
  cases schema; rfl

theorem setExample_setExample (schema : JSONSchemaProps) (a b : Raw) :
    (schema.setExample a).setExample b = schema.setExample b := by
  cases schema; rfl

/-- C20: the rewrite of the annotation slot is idempotent.  For a slot that is
absent or decodes, and a codec that decodes what it has encoded, a first
`ApplyToSchema` succeeds and a second one, on its result, succeeds and leaves
the node, hence the bytes of the slot, exactly as the first one left them. -/
theorem ApplyToSchema_idempotent (json : JSON) (m base : Doc) (schema : JSONSchemaProps)
    (hslot : (schema.Example = none ∧ base = Doc.zero) ∨
      ∃ raw, schema.Example = some raw ∧ json.UnmarshalDoc raw = .ok base)
    (hcodec : ∀ d : Doc, mergoMerge base m = .ok d →
      ∃ b, json.MarshalDoc d = .ok b ∧ json.UnmarshalDoc b = .ok d) :
    ∃ once : JSONSchemaProps,
      Doc.ApplyToSchema json m schema = .ok once ∧
      Doc.ApplyToSchema json m once = .ok once := by
  obtain ⟨d1, h1, h2⟩ := mergoMerge_idem base m
  obtain ⟨b, hb, hdec⟩ := hcodec d1 h1
  refine ⟨schema.setExample b, ?_, ?_⟩
  · unfold Doc.ApplyToSchema
    rcases hslot with ⟨hnone, rfl⟩ | ⟨raw, hraw, hbase⟩
    · simp only [hnone, h1, hb]
    · simp only [hraw, hbase, h1, hb]
  · unfold Doc.ApplyToSchema
    simp only [setExample_Example, hdec, h2, hb, setExample_setExample]

/-- An instance of C20 with the sample codec: an absent slot and the override
`{availability: "dev", links: ["a"]}`. -/
theorem ApplyToSchema_idempotent_witness :
    ∃ once : JSONSchemaProps,
      Doc.ApplyToSchema sampleJSON ⟨"dev".toList, some ["a".toList]⟩ JSONSchemaProps.zero
        = .ok once ∧
      Doc.ApplyToSchema sampleJSON ⟨"dev".toList, some ["a".toList]⟩ once = .ok once :=
  ApplyToSchema_idempotent sampleJSON ⟨"dev".toList, some ["a".toList]⟩ Doc.zero
    JSONSchemaProps.zero (Or.inl ⟨rfl, rfl⟩)
    (fun d hd => by
      have hd' : d = ⟨"dev".toList, some ["a".toList]⟩ := by
        have := hd
        simp only [mergoMerge, Doc.zero] at this
        injection this with h
        rw [← h]
        decide
      subst hd'
      exact ⟨_, rfl, rfl⟩)

/-! ## Claims on the resolvers, continued -/

/-- C17 as stated fails: resolving the empty path against `{a: 1}` returns the
empty mapping, not the tree. -/
theorem getStructSubPath_empty_path_counterexample :
    getStructSubPath [] (.map [("a".toList, .int 1)]) = .ok (.map []) ∧
    getStructSubPath [] (.map [("a".toList, .int 1)]) ≠ .ok (.map [("a".toList, .int 1)]) := by
  decide

/-- C17 (amended): for every value tree, resolving the empty path in subtree
mode succeeds and returns the empty mapping. -/
theorem getStructSubPath_empty_path (t : Value) : getStructSubPath [] t = .ok (.map []) := by
  rfl

/-! ## Claims on the output sink -/

theorem multiwriter.Write_of_err {σ : Type} (dest : σ → Str → (Int × Option String) × σ)
    (m : multiwriter σ) (e : String) (p : Str) (h : m.err = some e) :
    m.Write dest p = ((0, some e), m) := by
  unfold multiwriter.Write
  rw [h]

theorem multiwriter.Write_of_ok {σ : Type} (dest : σ → Str → (Int × Option String) × σ)
    (m : multiwriter σ) (p : Str) (h : m.err = none) :
    m.Write dest p = ((dest m.w p).1, ⟨(dest m.w p).2, (dest m.w p).1.2⟩) := by
  unfold multiwriter.Write
  rw [h]
  rcases hd : dest m.w p with ⟨⟨n, _ | e⟩, w'⟩ <;> rfl

theorem writeAll_of_err {σ : Type} (dest : σ → Str → (Int × Option String) × σ)
    (m : multiwriter σ) (e : String) (ps : List Str) (h : m.err = some e) :
    writeAll dest m ps = (ps.map (fun _ => (0, some e)), m) := by
  induction ps with
  | nil => rfl
  | cons p ps ih =>
    simp only [writeAll, multiwriter.Write_of_err dest m e p h, ih, List.map_cons]

theorem writeAll_of_ok {σ : Type} (dest : σ → Str → (Int × Option String) × σ)
    (m : multiwriter σ) (ps : List Str) (h : m.err = none)
    (hall : ∀ r ∈ (destAll dest m.w ps).1, r.2 = none) :
    writeAll dest m ps = ((destAll dest m.w ps).1, ⟨(destAll dest m.w ps).2, none⟩) := by
  induction ps generalizing m with
  | nil =>
    obtain ⟨w, err⟩ := m
    simp only at h
    subst h
    rfl
  | cons p ps ih =>
    have h1 : (dest m.w p).1.2 = none := hall _ (by simp [destAll])
    have hrest : ∀ r ∈ (destAll dest (dest m.w p).2 ps).1, r.2 = none :=
      fun r hr => hall r (by simp [destAll, hr])
    have ih' := ih ⟨(dest m.w p).2, (dest m.w p).1.2⟩ h1 hrest
    simp only [writeAll, destAll, multiwriter.Write_of_ok dest m p h, ih']

theorem writeAll_append {σ : Type} (dest : σ → Str → (Int × Option String) × σ)
    (m : multiwriter σ) (a b : List Str) :
    writeAll dest m (a ++ b) =
      ((writeAll dest m a).1 ++ (writeAll dest (writeAll dest m a).2 b).1,
        (writeAll dest (writeAll dest m a).2 b).2) := by
  induction a generalizing m with
  | nil => rfl
  | cons p ps ih =>
    show writeAll dest m (p :: (ps ++ b)) = _
    simp only [writeAll, ih, List.cons_append]

theorem destAll_append {σ : Type} (dest : σ → Str → (Int × Option String) × σ)
    (s : σ) (a b : List Str) :
    destAll dest s (a ++ b) =
      ((destAll dest s a).1 ++ (destAll dest (destAll dest s a).2 b).1,
        (destAll dest (destAll dest s a).2 b).2) := by
  induction a generalizing s with
  | nil => rfl
  | cons p ps ih =>
    show destAll dest s (p :: (ps ++ b)) = _
    simp only [destAll, ih, List.cons_append]

/-- C19: on a multiwriter that has retained the error `e`, every `Write`
returns `(0, e)` and leaves the multiwriter, the state of the destination
included, as it is, so `Error()` stays `e`; on a multiwriter without retained
error a `Write` returns what the destination returns and retains its error;
so in a sequence of writes on a fresh multiwriter the writes up to the first
failure return what the destination returns, the later ones return `(0, e)`
for the error `e` of that first failure without reaching the destination, and
`Error()` is nil as long as no write has failed and `e` afterwards. -/
theorem multiwriter_first_error (σ : Type) (dest : σ → Str → (Int × Option String) × σ)
    (s : σ) (pre post : List Str) (p : Str) :
    (∀ (m : multiwriter σ) (e : String), m.err = some e →
      ∀ ps, writeAll dest m ps = (ps.map (fun _ => (0, some e)), m)) ∧
    (∀ m : multiwriter σ, m.err = none →
      m.Write dest p = ((dest m.w p).1, ⟨(dest m.w p).2, (dest m.w p).1.2⟩)) ∧
    ((∀ r ∈ (destAll dest s pre).1, r.2 = none) →
      (writeAll dest ⟨s, none⟩ pre).1 = (destAll dest s pre).1 ∧
      (writeAll dest ⟨s, none⟩ pre).2.Error = none ∧
      ∀ e, (dest (destAll dest s pre).2 p).1.2 = some e →
        (writeAll dest ⟨s, none⟩ (pre ++ p :: post)).1 =
          (destAll dest s (pre ++ [p])).1 ++ post.map (fun _ => (0, some e)) ∧
        (writeAll dest ⟨s, none⟩ (pre ++ p :: post)).2 =
          ⟨(destAll dest s (pre ++ [p])).2, some e⟩ ∧
        (writeAll dest ⟨s, none⟩ (pre ++ p :: post)).2.Error = some e) := by
  refine ⟨fun m e h ps => writeAll_of_err dest m e ps h,
    fun m h => multiwriter.Write_of_ok dest m p h, ?_⟩
  intro hall
  have hpre := writeAll_of_ok dest ⟨s, none⟩ pre rfl hall
  refine ⟨by rw [hpre], by rw [hpre]; rfl, ?_⟩
  intro e he
  have hw : (multiwriter.mk (destAll dest s pre).2 none).Write dest p =
      ((dest (destAll dest s pre).2 p).1,
        ⟨(dest (destAll dest s pre).2 p).2, some e⟩) := by
    rw [multiwriter.Write_of_ok dest _ p rfl, he]
  have hrest := writeAll_of_err dest
    ⟨(dest (destAll dest s pre).2 p).2, some e⟩ e post rfl
  have hall2 : writeAll dest ⟨s, none⟩ (pre ++ p :: post) =
      ((destAll dest s (pre ++ [p])).1 ++ post.map (fun _ => (0, some e)),
        ⟨(destAll dest s (pre ++ [p])).2, some e⟩) := by
    rw [writeAll_append, hpre, destAll_append]
    simp only [writeAll, destAll, hw, hrest, List.append_assoc, List.singleton_append]
  rw [hall2]
  exact ⟨rfl, rfl, rfl⟩

/-- An instance of C19: a destination that fails once it holds four characters.  The
writes `ab`, `cd` pass, `ef` fails with `disk full`, and `gh` returns `(0, disk full)`
without reaching the destination. -/
theorem multiwriter_first_error_witness :
    (writeAll sampleDest ⟨[], none⟩
        ["ab".toList, "cd".toList, "ef".toList, "gh".toList]).1 =
      [(2, none), (2, none), (0, some "disk full"), (0, some "disk full")] ∧
    (writeAll sampleDest ⟨[], none⟩
        ["ab".toList, "cd".toList, "ef".toList, "gh".toList]).2 =
      ⟨"abcd".toList, some "disk full"⟩ := by
  obtain ⟨h1, h2, -⟩ := ((multiwriter_first_error Str sampleDest []
    ["ab".toList, "cd".toList] ["gh".toList] "ef".toList).2.2 (by decide)).2.2
      "disk full" (by decide)
  exact ⟨h1, h2⟩

/-! ## Lemmas on formatting -/

theorem Sprintf_nil (args : List Str) : Sprintf [] args = [] := by
  cases args <;> rfl

theorem Sprintf_plain (pre rest : Str) (args : List Str) (h : '%' ∉ pre) :
    Sprintf (pre ++ rest) args = pre ++ Sprintf rest args := by
  induction pre with
  | nil => rfl
  | cons c cs ih =>
    have hc : c ≠ '%' := fun e => h (by simp [e])
    have hcs : '%' ∉ cs := fun e => h (by simp [e])
    have ih' := ih hcs
    cases hrest : cs ++ rest with
    | nil =>
      have h1 : cs = [] := (List.append_eq_nil.1 hrest).1
      have h2 : rest = [] := (List.append_eq_nil.1 hrest).2
      subst h1 h2
      simp [Sprintf, Sprintf_nil]
    | cons d r =>
      rw [hrest] at ih'
      rw [List.cons_append, hrest]
      simp only [Sprintf, hc, false_and, if_false, ih', List.cons_append]

theorem Sprintf_verb (rest a : Str) (args : List Str) :
    Sprintf ('%' :: 's' :: rest) (a :: args) = a ++ Sprintf rest args := by
  simp [Sprintf]

theorem replace_plain (s t : Str) (h : '`' ∉ s) :
    replaceDoubleBackticks (s ++ t) = s ++ replaceDoubleBackticks t := by
  induction s with
  | nil => rfl
  | cons c cs ih =>
    have hc : c ≠ '`' := fun e => h (by simp [e])
    have hcs : '`' ∉ cs := fun e => h (by simp [e])
    have ih' := ih hcs
    cases hrest : cs ++ t with
    | nil =>
      have h1 : cs = [] := (List.append_eq_nil.1 hrest).1
      have h2 : t = [] := (List.append_eq_nil.1 hrest).2
      subst h1 h2
      simp [replaceDoubleBackticks]
    | cons d r =>
      rw [hrest] at ih'
      rw [List.cons_append, hrest]
      simp only [replaceDoubleBackticks, hc, false_and, if_false, ih', List.cons_append]

theorem replace_double (t : Str) :
    replaceDoubleBackticks ('`' :: '`' :: t) = "_no value_".toList ++ replaceDoubleBackticks t := by
  simp [replaceDoubleBackticks]

theorem replace_single (c : Char) (t : Str) (hc : c ≠ '`') :
    replaceDoubleBackticks ('`' :: c :: t) = '`' :: replaceDoubleBackticks (c :: t) := by
  rw [replaceDoubleBackticks, if_neg (fun e => hc e.2)]

theorem replace_code (s t : Str) (hne : s ≠ []) (h : '`' ∉ s) :
    replaceDoubleBackticks ('`' :: s ++ t) = '`' :: s ++ replaceDoubleBackticks t := by
  cases s with
  | nil => exact absurd rfl hne
  | cons c cs =>
    have hc : c ≠ '`' := fun e => h (by simp [e])
    rw [List.cons_append, List.cons_append, replace_single c (cs ++ t) hc,
      ← List.cons_append, replace_plain (c :: cs) t h]
    rfl

theorem digitChar_ne_backtick : ∀ d, d < 10 → Nat.digitChar d ≠ '`' := by
  decide

theorem toDigitsCore_no_backtick (fuel n : Nat) (ds : List Char) (h : '`' ∉ ds) :
    '`' ∉ Nat.toDigitsCore 10 fuel n ds := by
  induction fuel generalizing n ds with
  | zero => exact h
  | succ f ih =>
    have hd : '`' ∉ Nat.digitChar (n % 10) :: ds := by
      intro hm
      rcases List.mem_cons.1 hm with e | e
      · exact digitChar_ne_backtick (n % 10) (Nat.mod_lt _ (by decide)) e.symm
      · exact h e
    simp only [Nat.toDigitsCore]
    split
    · exact hd
    · exact ih _ _ hd

theorem toDigitsCore_ne_nil (fuel n : Nat) (ds : List Char) (h : ds ≠ []) :
    Nat.toDigitsCore 10 fuel n ds ≠ [] := by
  induction fuel generalizing n ds with
  | zero => exact h
  | succ f ih =>
    simp only [Nat.toDigitsCore]
    split
    · simp
    · exact ih _ _ (by simp)

theorem toDigits_no_backtick (n : Nat) : '`' ∉ Nat.toDigits 10 n :=
  toDigitsCore_no_backtick _ _ _ (by simp)

theorem toDigits_ne_nil (n : Nat) : Nat.toDigits 10 n ≠ [] := by
  unfold Nat.toDigits
  simp only [Nat.toDigitsCore]
  split
  · simp
  · exact toDigitsCore_ne_nil _ _ _ (by simp)

theorem intDecimal_no_backtick (n : Int) : '`' ∉ intDecimal n := by
  unfold intDecimal
  intro h
  rcases List.mem_append.1 h with h | h
  · split at h <;> simp at h
  · exact toDigits_no_backtick _ h

theorem intDecimal_ne_nil (n : Int) : intDecimal n ≠ [] := by
  unfold intDecimal
  intro h
  exact toDigits_ne_nil _ (List.append_eq_nil.1 h).2

theorem roundHalfEven_of_represents (f : Float64) (n : Int) (h : f.represents n) :
    FormatFloat f = intDecimal n := by
  obtain ⟨hneg, hval⟩ := h
  have hr : roundHalfEven f.mant f.exp = n.natAbs := by
    unfold roundHalfEven
    rcases hval with ⟨he, hv⟩ | ⟨he, hv⟩
    · rw [if_pos he, hv]
    · rw [if_neg (by omega)]
      have hd : 0 < 2 ^ (-f.exp).toNat := Nat.pos_pow_of_pos _ (by decide)
      simp only [hv, Nat.mul_mod_left, Nat.mul_div_cancel _ hd, Nat.mul_zero, hd, if_true]
  unfold FormatFloat intDecimal
  rw [hr, hneg]
  by_cases hn : n < 0 <;> simp [hn]

theorem replace_id (s : Str) (h : '`' ∉ s) : replaceDoubleBackticks s = s := by
  have := replace_plain s [] h
  simpa [replaceDoubleBackticks] using this

theorem replace_tail (post : Str) (h : '`' ∉ post) :
    replaceDoubleBackticks ('`' :: post) = '`' :: post := by
  cases post with
  | nil => rfl
  | cons c r =>
    have hc : c ≠ '`' := fun e => h (by simp [e])
    rw [replace_single c r hc, replace_id (c :: r) h]

theorem Sprintf_code (pre post v : Str) (args : List Str) (hpre : '%' ∉ pre) :
    Sprintf (pre ++ '`' :: '%' :: 's' :: '`' :: post) (v :: args)
      = pre ++ ('`' :: (v ++ Sprintf ('`' :: post) args)) := by
  rw [Sprintf_plain pre _ _ hpre]
  have h1 : Sprintf ('`' :: '%' :: 's' :: '`' :: post) (v :: args)
      = '`' :: Sprintf ('%' :: 's' :: '`' :: post) (v :: args) := by
    rw [Sprintf, if_neg (by decide)]
  rw [h1, Sprintf_verb]

theorem Sprintf_end (post : Str) (hpost : '%' ∉ post) : Sprintf post [] = post := by
  have := Sprintf_plain post [] [] hpost
  simpa [Sprintf_nil] using this

theorem replace_code' (s t : Str) (hne : s ≠ []) (h : '`' ∉ s) :
    replaceDoubleBackticks ('`' :: (s ++ t)) = '`' :: (s ++ replaceDoubleBackticks t) := by
  have := replace_code s t hne h
  simpa using this

/-- A line that wraps one non-empty value without backticks in inline code. -/
theorem linefmt_code (pre post v : Str) (hpre : '%' ∉ pre) (hpre' : '`' ∉ pre)
    (hpost : '%' ∉ post) (hpost' : '`' ∉ post) (hv : v ≠ []) (hv' : '`' ∉ v) :
    linefmt (pre ++ '`' :: '%' :: 's' :: '`' :: post) [v]
      = pre ++ ('`' :: (v ++ ('`' :: (post ++ "<br />\n".toList)))) := by
  have hs : Sprintf (pre ++ '`' :: '%' :: 's' :: '`' :: post) [v]
      = pre ++ ('`' :: (v ++ ('`' :: post))) := by
    rw [Sprintf_code pre post v [] hpre,
      Sprintf_end ('`' :: post) (by simpa using hpost)]
  have hlen : ¬ (pre ++ ('`' :: (v ++ ('`' :: post)))).length = 0 := by simp
  unfold linefmt
  simp only [hs, hlen, if_false]
  rw [replace_plain pre _ hpre', replace_code' v _ hv hv', replace_tail post hpost']
  simp only [List.append_assoc, List.cons_append]

/-- A line that wraps two non-empty values without backticks in inline code. -/
theorem linefmt_code2 (pre mid post a b : Str) (hpre : '%' ∉ pre) (hpre' : '`' ∉ pre)
    (hmid : '%' ∉ mid) (hmid' : '`' ∉ mid) (hmid0 : mid ≠ [])
    (hpost : '%' ∉ post) (hpost' : '`' ∉ post)
    (ha : a ≠ []) (ha' : '`' ∉ a) (hb : b ≠ []) (hb' : '`' ∉ b) :
    linefmt (pre ++ '`' :: '%' :: 's' :: '`' :: (mid ++ '`' :: '%' :: 's' :: '`' :: post)) [a, b]
      = pre ++ ('`' :: (a ++ ('`' :: (mid ++ ('`' :: (b ++ ('`' ::
          (post ++ "<br />\n".toList)))))))) := by
  have h2 : Sprintf ('`' :: (mid ++ '`' :: '%' :: 's' :: '`' :: post)) [b]
      = '`' :: (mid ++ ('`' :: (b ++ ('`' :: post)))) := by
    have := Sprintf_code ('`' :: mid) post b [] (by simpa using hmid)
    rw [Sprintf_end ('`' :: post) (by simpa using hpost)] at this
    simpa using this
  have hs : Sprintf (pre ++ '`' :: '%' :: 's' :: '`' :: (mid ++ '`' :: '%' :: 's' :: '`' :: post))
      [a, b] = pre ++ ('`' :: (a ++ ('`' :: (mid ++ ('`' :: (b ++ ('`' :: post))))))) := by
    rw [Sprintf_code pre _ a [b] hpre, h2]
  have hlen : ¬ (pre ++ ('`' :: (a ++ ('`' :: (mid ++ ('`' :: (b ++ ('`' :: post)))))))).length
      = 0 := by simp
  unfold linefmt
  simp only [hs, hlen, if_false]
  rw [replace_plain pre _ hpre', replace_code' a _ ha ha', replace_code' mid _ hmid0 hmid',
    replace_code' b _ hb hb', replace_tail post hpost']
  simp only [List.append_assoc, List.cons_append]

/-! ## Claims on the rendering of an entry -/

theorem floatfmt_of_represents (p : FloatPtr) (n : Int) (h : p.val.represents n) :
    floatfmt (some p) = intDecimal n :=
  roundHalfEven_of_represents p.val n h

theorem boundLines_minimum (m : ExtDoc) (p : FloatPtr) (n : Int) (hp : p.val.represents n)
    (hmin : m.Minimum = some p) (hmax : m.Maximum = none) :
    boundLines m = "Minimum value: `".toList ++ intDecimal n ++ "`<br />\n".toList := by
  unfold boundLines
  rw [hmin, hmax, floatfmt_of_represents p n hp]
  have h := linefmt_code "Minimum value: ".toList [] (intDecimal n) (by decide) (by decide)
    (by decide) (by decide) (intDecimal_ne_nil n) (intDecimal_no_backtick n)
  simp only [ptrNe, Option.map, bne_iff_ne, ne_eq, reduceCtorEq, not_false_eq_true, if_true]
  exact h.trans (by simp)

theorem boundLines_maximum (m : ExtDoc) (p : FloatPtr) (n : Int) (hp : p.val.represents n)
    (hmin : m.Minimum = none) (hmax : m.Maximum = some p) :
    boundLines m = "Maximum value: `".toList ++ intDecimal n ++ "`<br />\n".toList := by
  unfold boundLines
  rw [hmin, hmax, floatfmt_of_represents p n hp]
  have h := linefmt_code "Maximum value: ".toList [] (intDecimal n) (by decide) (by decide)
    (by decide) (by decide) (intDecimal_ne_nil n) (intDecimal_no_backtick n)
  simp only [ptrNe, Option.map, bne_iff_ne, ne_eq, reduceCtorEq, not_false_eq_true, if_true]
  exact h.trans (by simp)

theorem boundLines_range (m : ExtDoc) (p q : FloatPtr) (a b : Int)
    (hp : p.val.represents a) (hq : q.val.represents b)
    (hmin : m.Minimum = some p) (hmax : m.Maximum = some q) (hne : p.addr ≠ q.addr) :
    boundLines m = "Value range: `".toList ++ intDecimal a ++ "`-`".toList ++ intDecimal b ++
      "`<br />\n".toList := by
  unfold boundLines
  rw [hmin, hmax, floatfmt_of_represents p a hp, floatfmt_of_represents q b hq]
  have h := linefmt_code2 "Value range: ".toList "-".toList [] (intDecimal a) (intDecimal b)
    (by decide) (by decide) (by decide) (by decide) (by decide) (by decide) (by decide)
    (intDecimal_ne_nil a) (intDecimal_no_backtick a)
    (intDecimal_ne_nil b) (intDecimal_no_backtick b)
  simp only [ptrNe, Option.map, bne_iff_ne, ne_eq, Option.some.injEq, hne, not_false_eq_true,
    if_true]
  exact h.trans (by simp)

theorem boundLines_same_pointer (m : ExtDoc)
    (h : m.Minimum.map (fun x => x.addr) = m.Maximum.map (fun x => x.addr)) :
    boundLines m = [] := by
  unfold boundLines
  simp [ptrNe, h]

/-- C11 as stated fails: with minimum 5 and maximum 5, two pointers to equal
numbers, `formatStraight` writes the line `Value range: 5-5`. -/
theorem formatStraight_equal_bounds_counterexample :
    ExtDoc.formatStraight
      { Availability := [], Default := [], Description := [], Enum := [], Level := 2,
        Link := none, Maximum := some ⟨2, ⟨false, 5, 0⟩⟩, Minimum := some ⟨1, ⟨false, 5, 0⟩⟩,
        Path := ".port".toList, Pattern := [], Required := false, Title := "port".toList,
        Typ := "integer".toList }
      = ("## port\nType: `integer`<br />\nRequired: `false`<br />\n" ++
          "Value range: `5`-`5`<br />\n\n").toList := by
  decide

/-- C11 (amended): for an entry whose minimum and maximum are both present and
hold the same integer, `formatStraight` writes no bound line when the two are
the same pointer, and the line `Value range` with the number on both sides
when they are two pointers. -/
theorem formatStraight_equal_bounds (m : ExtDoc) (p q : FloatPtr) (n : Int)
    (hp : p.val.represents n) (hq : q.val.represents n)
    (hmin : m.Minimum = some p) (hmax : m.Maximum = some q) :
    (p.addr = q.addr →
      m.formatStraight = headingLine m ++ beforeBounds m ++ afterBounds m) ∧
    (p.addr ≠ q.addr →
      m.formatStraight = headingLine m ++ beforeBounds m ++
        ("Value range: `".toList ++ intDecimal n ++ "`-`".toList ++ intDecimal n ++
          "`<br />\n".toList) ++ afterBounds m) := by
  constructor
  · intro h
    unfold ExtDoc.formatStraight
    rw [boundLines_same_pointer m (by simp [hmin, hmax, h])]
    simp
  · intro h
    unfold ExtDoc.formatStraight
    rw [boundLines_range m p q n n hp hq hmin hmax h]

/-- An instance of the amended C11: minimum and maximum are one pointer to 5, and no
bound line is written. -/
theorem formatStraight_equal_bounds_witness :
    ExtDoc.formatStraight
      { Availability := [], Default := [], Description := [], Enum := [], Level := 2,
        Link := none, Maximum := some ⟨1, ⟨false, 5, 0⟩⟩, Minimum := some ⟨1, ⟨false, 5, 0⟩⟩,
        Path := ".port".toList, Pattern := [], Required := false, Title := "port".toList,
        Typ := "integer".toList }
      = "## port\nType: `integer`<br />\nRequired: `false`<br />\n\n".toList :=
  ((formatStraight_equal_bounds _ ⟨1, ⟨false, 5, 0⟩⟩ ⟨1, ⟨false, 5, 0⟩⟩ 5
    ⟨rfl, Or.inl ⟨by decide, by decide⟩⟩ ⟨rfl, Or.inl ⟨by decide, by decide⟩⟩ rfl rfl).1
    rfl).trans (by decide)

/-- C12: for an entry with exactly one bound present, an integer, `formatStraight`
writes between the lines before and after the bounds exactly one line:
`Minimum value` with the numeral in inline code when only the minimum is
present, `Maximum value` when only the maximum is; with both bounds absent it
writes nothing there. -/
theorem formatStraight_single_bound (m : ExtDoc) (p : FloatPtr) (n : Int)
    (hp : p.val.represents n) :
    (m.Minimum = some p → m.Maximum = none →
      m.formatStraight = headingLine m ++ beforeBounds m ++
        ("Minimum value: `".toList ++ intDecimal n ++ "`<br />\n".toList) ++ afterBounds m) ∧
    (m.Minimum = none → m.Maximum = some p →
      m.formatStraight = headingLine m ++ beforeBounds m ++
        ("Maximum value: `".toList ++ intDecimal n ++ "`<br />\n".toList) ++ afterBounds m) ∧
    (m.Minimum = none → m.Maximum = none →
      m.formatStraight = headingLine m ++ beforeBounds m ++ afterBounds m) := by
  refine ⟨fun hmin hmax => ?_, fun hmin hmax => ?_, fun hmin hmax => ?_⟩
  · unfold ExtDoc.formatStraight
    rw [boundLines_minimum m p n hp hmin hmax]
  · unfold ExtDoc.formatStraight
    rw [boundLines_maximum m p n hp hmin hmax]
  · unfold ExtDoc.formatStraight
    rw [boundLines_same_pointer m (by simp [hmin, hmax])]
    simp

/-- The examples of C12: minimum 5 alone gives the line `Minimum value: 5`, maximum 10
alone the line `Maximum value: 10`. -/
theorem formatStraight_single_bound_witness :
    ExtDoc.formatStraight
      { Availability := [], Default := [], Description := [], Enum := [], Level := 2,
        Link := none, Maximum := none, Minimum := some ⟨1, ⟨false, 5, 0⟩⟩,
        Path := ".port".toList, Pattern := [], Required := false, Title := "port".toList,
        Typ := "integer".toList }
      = ("## port\nType: `integer`<br />\nRequired: `false`<br />\n" ++
          "Minimum value: `5`<br />\n\n").toList ∧
    ExtDoc.formatStraight
      { Availability := [], Default := [], Description := [], Enum := [], Level := 2,
        Link := none, Maximum := some ⟨1, ⟨false, 10, 0⟩⟩, Minimum := none,
        Path := ".port".toList, Pattern := [], Required := false, Title := "port".toList,
        Typ := "integer".toList }
      = ("## port\nType: `integer`<br />\nRequired: `false`<br />\n" ++
          "Maximum value: `10`<br />\n\n").toList :=
  ⟨((formatStraight_single_bound _ ⟨1, ⟨false, 5, 0⟩⟩ 5
      ⟨rfl, Or.inl ⟨by decide, by decide⟩⟩).1 rfl rfl).trans (by decide),
   ((formatStraight_single_bound _ ⟨1, ⟨false, 10, 0⟩⟩ 10
      ⟨rfl, Or.inl ⟨by decide, by decide⟩⟩).2.1 rfl rfl).trans (by decide)⟩

theorem trimLeft_dots (l : Str) :
    ∃ k, l = List.replicate k '.' ++ TrimLeft l ".".toList ∧
      (TrimLeft l ".".toList).head? ≠ some '.' := by
  induction l with
  | nil => exact ⟨0, rfl, by simp [TrimLeft]⟩
  | cons c cs ih =>
    by_cases hc : c = '.'
    · obtain ⟨k, h1, h2⟩ := ih
      subst hc
      have ht : TrimLeft ('.' :: cs) ".".toList = TrimLeft cs ".".toList := by
        simp [TrimLeft, List.dropWhile]
      refine ⟨k + 1, ?_, by rw [ht]; exact h2⟩
      rw [ht, List.replicate_succ, List.cons_append, ← h1]
    · have ht : TrimLeft (c :: cs) ".".toList = c :: cs := by
        simp [TrimLeft, List.dropWhile, hc]
      exact ⟨0, by rw [ht]; rfl, by rw [ht]; simpa using hc⟩

/-- C14 as stated fails: for the path `.foo.bar` at level 3 the heading is
`### foo.bar`, the whole path, not `### bar`. -/
theorem formatStraight_heading_counterexample :
    ExtDoc.formatStraight
      { Availability := [], Default := [], Description := [], Enum := [], Level := 3,
        Link := none, Maximum := none, Minimum := none, Path := ".foo.bar".toList,
        Pattern := [], Required := false, Title := "bar".toList, Typ := "string".toList }
      = "### foo.bar\nType: `string`<br />\nRequired: `false`<br />\n\n".toList ∧
    "### bar\n".toList.isPrefixOf (ExtDoc.formatStraight
      { Availability := [], Default := [], Description := [], Enum := [], Level := 3,
        Link := none, Maximum := none, Minimum := none, Path := ".foo.bar".toList,
        Pattern := [], Required := false, Title := "bar".toList, Typ := "string".toList })
      = false := by
  decide

/-- C14 (amended): the heading line written by `formatStraight` consists of
`Level` characters `#`, a space, and the whole path of the entry without its
leading dots (all segments, the ancestors' included), followed by a newline. -/
theorem formatStraight_heading (m : ExtDoc) :
    m.formatStraight =
      List.replicate m.Level '#' ++ ' ' :: (TrimLeft m.Path ".".toList ++
        '\n' :: (beforeBounds m ++ boundLines m ++ afterBounds m)) ∧
    ∃ k, m.Path = List.replicate k '.' ++ TrimLeft m.Path ".".toList ∧
      (TrimLeft m.Path ".".toList).head? ≠ some '.' := by
  refine ⟨?_, trimLeft_dots m.Path⟩
  unfold ExtDoc.formatStraight headingLine
  have h : Sprintf "%s %s".toList [List.replicate m.Level '#', TrimLeft m.Path ".".toList]
      = List.replicate m.Level '#' ++ ' ' :: TrimLeft m.Path ".".toList := by
    simp [Sprintf]
  rw [h]
  simp

/-! ## Lists of strings -/

theorem strLt_asymm {a b : Str} (h : strLt a b = true) : strLt b a = false := by
  cases hba : strLt b a with
  | false => rfl
  | true =>
    have := strLt_trans h hba
    rw [strLt_irrefl] at this
    exact absurd this Bool.false_ne_true

theorem insertSorted_sorted (x : Str) (l : List Str)
    (hl : l.Pairwise (fun a b => strLt b a = false)) :
    (insertSorted x l).Pairwise (fun a b => strLt b a = false) := by
  induction l with
  | nil => simp [insertSorted]
  | cons y ys ih =>
    rw [List.pairwise_cons] at hl
    unfold insertSorted
    split
    · rename_i hlt
      rw [List.pairwise_cons]
      refine ⟨fun a ha => ?_, ih hl.2⟩
      rcases (mem_insertSorted x a ys).1 ha with rfl | ha
      · exact strLt_asymm hlt
      · exact hl.1 a ha
    · rename_i hlt
      have hyx : strLt y x = false := by simpa using hlt
      rw [List.pairwise_cons]
      refine ⟨fun a ha => ?_, List.pairwise_cons.2 hl⟩
      rcases List.mem_cons.1 ha with rfl | ha
      · exact hyx
      · cases hax : strLt a x with
        | false => rfl
        | true =>
          have hay : strLt a y = false := hl.1 a ha
          by_cases hxy : y = x
          · subst hxy
            rw [hay] at hax
            exact absurd hax Bool.false_ne_true
          · have := strLt_trans hax (strLt_total hyx hxy)
            rw [hay] at this
            exact absurd this Bool.false_ne_true

theorem sortStrings_sorted (l : List Str) :
    (sortStrings l).Pairwise (fun a b => strLt b a = false) := by
  induction l with
  | nil => simp [sortStrings]
  | cons x xs ih => exact insertSorted_sorted x _ ih

theorem insertSorted_perm (x : Str) (l : List Str) : (insertSorted x l).Perm (x :: l) := by
  induction l with
  | nil => exact List.Perm.refl _
  | cons y ys ih =>
    unfold insertSorted
    split
    · exact ((List.Perm.cons y ih).trans (List.Perm.swap x y ys))
    · exact List.Perm.refl _

theorem sortStrings_perm (l : List Str) : (sortStrings l).Perm l := by
  induction l with
  | nil => exact List.Perm.refl _
  | cons x xs ih => exact (insertSorted_perm x _).trans (List.Perm.cons x ih)

theorem writeListLoop_eq (max : Int) (i : Nat) (l : List Str)
    (h : (i : Int) + l.length = max + 1) :
    writeListLoop max i l = joinSep ", ".toList (l.map renderItem) := by
  induction l generalizing i with
  | nil => rfl
  | cons item rest ih =>
    have hitem : (if item.length > 0 then Sprintf "`%s`".toList [item]
        else Sprintf "_(empty string)_".toList []) = renderItem item := by
      unfold renderItem
      by_cases he : item = []
      · subst he
        decide
      · have hpos : item.length > 0 := List.length_pos.2 he
        rw [if_pos hpos, if_neg he]
        have := Sprintf_code [] [] item [] (by simp)
        simpa using this
    have hrec := ih (i + 1) (by simp only [List.length_cons] at h; push_cast at h ⊢; omega)
    rw [writeListLoop, hitem, hrec]
    cases rest with
    | nil =>
      have hi : (i : Int) = max := by simp at h; omega
      simp [hi, joinSep]
    | cons r rs =>
      have hi : (i : Int) ≠ max := by simp only [List.length_cons] at h; push_cast at h; omega
      simp [hi, joinSep]

/-- C13 as stated fails: the list `["b", "", "a"]` is rendered with the empty
string first and its placeholder outside inline code. -/
theorem writeList_counterexample :
    writeList ["b".toList, [], "a".toList] = "_(empty string)_, `a`, `b`<br />\n".toList ∧
    writeList ["b".toList, [], "a".toList] ≠ "`a`, `_(empty string)_`, `b`<br />\n".toList ∧
    writeList ["b".toList, [], "a".toList] ≠ "`a`, _(empty string)_, `b`<br />\n".toList := by
  decide

/-- C13 (amended): `writeList` renders the items in ascending order of the
strings, separated by `, ` and followed by the line break, a non-empty item
as inline code and the empty string as the placeholder `_(empty string)_`
without inline code; the empty string sorts first, so `["b", "", "a"]` is
rendered as the placeholder, then `a`, then `b`. -/
theorem writeList_sorted (list : List Str) :
    (∃ sorted : List Str,
      sorted.Perm list ∧ sorted.Pairwise (fun a b => strLt b a = false) ∧
      writeList list = joinSep ", ".toList (sorted.map renderItem) ++ "<br />\n".toList) ∧
    writeList ["b".toList, [], "a".toList] = "_(empty string)_, `a`, `b`<br />\n".toList := by
  refine ⟨⟨sortStrings list, sortStrings_perm list, sortStrings_sorted list, ?_⟩, by decide⟩
  unfold writeList
  simp only
  rw [writeListLoop_eq _ 0 (sortStrings list) (by simp)]

/-! ## Claims on `linefmt` -/

/-- C18 as stated fails: a value that is a double backtick gives two
placeholders, and a value that contains one keeps its other characters and
the inline-code delimiters. -/
theorem linefmt_double_backtick_counterexample :
    linefmt "Type: `%s`".toList ["``".toList] = "Type: _no value__no value_<br />\n".toList ∧
    linefmt "Type: `%s`".toList ["``".toList] ≠ "Type: _no value_<br />\n".toList ∧
    linefmt "Type: `%s`".toList ["a``b".toList] = "Type: `a_no value_b`<br />\n".toList ∧
    linefmt "Type: `%s`".toList ["a``b".toList] ≠ "Type: _no value_<br />\n".toList := by
  decide

/-- C18 (amended): in a line that wraps a value in inline-code delimiters, an
empty value renders as the placeholder, which takes the place of the
delimiters (`linefmt("Type: %s", "")` with the verb in backticks is
`Type: _no value_` and the line break); a value `a ++ "``" ++ b` with `a`
and `b` non-empty and free of backticks keeps `a`, `b` and the delimiters,
only the double backtick becoming the placeholder. -/
theorem linefmt_placeholder (pre post : Str) (hpre : '%' ∉ pre) (hpre' : '`' ∉ pre)
    (hpost : '%' ∉ post) (hpost' : '`' ∉ post) :
    linefmt (pre ++ '`' :: '%' :: 's' :: '`' :: post) [[]]
      = pre ++ "_no value_".toList ++ post ++ "<br />\n".toList ∧
    (∀ a b : Str, a ≠ [] → '`' ∉ a → b ≠ [] → '`' ∉ b →
      linefmt (pre ++ '`' :: '%' :: 's' :: '`' :: post) [a ++ '`' :: '`' :: b]
        = pre ++ '`' :: a ++ "_no value_".toList ++ b ++ '`' :: post ++ "<br />\n".toList) ∧
    linefmt "Type: `%s`".toList [[]] = "Type: _no value_<br />\n".toList := by
  refine ⟨?_, ?_, by decide⟩
  · have hs : Sprintf (pre ++ '`' :: '%' :: 's' :: '`' :: post) [[]]
        = pre ++ ('`' :: '`' :: post) := by
      rw [Sprintf_code pre post [] [] hpre,
        Sprintf_end ('`' :: post) (by simpa using hpost)]
      rfl
    have hlen : ¬ (pre ++ ('`' :: '`' :: post)).length = 0 := by simp
    unfold linefmt
    simp only [hs, hlen, if_false]
    rw [replace_plain pre _ hpre', replace_double, replace_id post hpost']
    simp only [List.append_assoc]
  · intro a b ha ha' hb hb'
    have hs : Sprintf (pre ++ '`' :: '%' :: 's' :: '`' :: post) [a ++ '`' :: '`' :: b]
        = pre ++ ('`' :: (a ++ ('`' :: '`' :: (b ++ ('`' :: post))))) := by
      rw [Sprintf_code pre post _ [] hpre,
        Sprintf_end ('`' :: post) (by simpa using hpost)]
      simp only [List.append_assoc, List.cons_append]
    have hlen : ¬ (pre ++ ('`' :: (a ++ ('`' :: '`' :: (b ++ ('`' :: post)))))).length = 0 := by
      simp
    have hb2 : replaceDoubleBackticks (b ++ ('`' :: post)) = b ++ ('`' :: post) := by
      rw [replace_plain b _ hb', replace_tail post hpost']
    unfold linefmt
    simp only [hs, hlen, if_false]
    rw [replace_plain pre _ hpre', replace_code' a _ ha ha', replace_double, hb2]
    simp only [List.append_assoc, List.cons_append]

/-- An instance of the amended C18: the line of the pattern for the value `a``b`. -/
theorem linefmt_placeholder_witness :
    linefmt "Pattern: `%s`".toList ["a``b".toList]
      = "Pattern: `a_no value_b`<br />\n".toList :=
  ((linefmt_placeholder "Pattern: ".toList [] (by decide) (by decide) (by decide)
    (by decide)).2.1 "a".toList "b".toList (by decide) (by decide) (by decide)
    (by decide)).trans (by decide)

/-! ## Claims on missing fields of the example instance -/

theorem subPathLoop_key_not_found (max : Nat) (leaf : Leaf) (i : Nat) (ks : List Str)
    (s : Str) (post : List Str) (t : Value) (entries : List (Str × Value))
    (hlen : i + (ks.length + post.length) = max)
    (hkey : ∀ a ∈ ks, a ≠ [] ∧ trimKey a = a)
    (hx : valueAt t ks = some (.map entries))
    (hs : trimKey s ≠ []) (hmiss : mapIndex (trimKey s) entries = none) :
    subPathLoop max leaf i (ks ++ s :: post) t = .error "key not found" := by
  induction ks generalizing i t leaf with
  | nil =>
    simp only [valueAt, Option.some.injEq] at hx
    subst hx
    have hs2 : ¬ (trimKey s).length = 0 := by simpa using hs
    rw [List.nil_append, subPathLoop]
    simp only [hs2, if_false, drilldown, hmiss]
  | cons k ks ih =>
    obtain ⟨e0, y, rfl, hm, hy⟩ := valueAt_cons_some hx
    obtain ⟨hk, htrim⟩ := hkey k (by simp)
    have hk2 : ¬ k.length = 0 := by simpa using hk
    have hymap : ∃ ey, y = .map ey := by
      cases ks with
      | nil => exact ⟨entries, by simpa [valueAt] using hy⟩
      | cons k2 ks2 =>
        obtain ⟨e2, _, h2, -, -⟩ := valueAt_cons_some hy
        exact ⟨e2, h2⟩
    obtain ⟨ey, rfl⟩ := hymap
    have hi : ¬ i = max := by simp only [List.length_cons] at hlen; omega
    have hrec := ih .fresh (i + 1) (.map ey)
      (by simp only [List.length_cons] at hlen; omega)
      (fun a ha => hkey a (List.mem_cons_of_mem _ ha)) hy
    rw [List.cons_append, subPathLoop]
    simp only [htrim, hk2, if_false, drilldown, hm, Value.Kind, hi, if_true, hrec,
      reduceCtorEq]

/-- The first half of C15: when the segments `segs`, followed with their
trailing brackets stripped, lead to a mapping in which the next segment is not
a key, subtree-mode resolution fails with `key not found`. -/
theorem getStructSubPath_key_not_found (segs : List Str) (s : Str) (post : List Str)
    (t : Value) (entries : List (Str × Value))
    (hdot : ∀ a ∈ segs ++ s :: post, '.' ∉ a)
    (hkey : ∀ a ∈ segs, trimKey a ≠ [])
    (hx : valueAt t (segs.map trimKey) = some (.map entries))
    (hs : trimKey s ≠ []) (hmiss : mapIndex (trimKey s) entries = none) :
    getStructSubPath (joinDots (segs ++ s :: post)) t = .error "key not found" := by
  unfold getStructSubPath
  simp only [splitDots_joinDots (segs ++ s :: post) (by simp) hdot]
  rw [← subPathLoop_trim, List.map_append, List.map_cons,
    subPathLoop_key_not_found _ .fresh 0 (segs.map trimKey) (trimKey s) (post.map trimKey) t
      entries (by simp)
      (by
        intro a ha
        obtain ⟨b, hb, rfl⟩ := List.mem_map.1 ha
        exact ⟨hkey b hb, trimKey_idem b⟩)
      hx (by rw [trimKey_idem]; exact hs) (by rw [trimKey_idem]; exact hmiss)]

/-- C15, the failing case: against the example instance `{a: 5}` the path
`a.b` does not denote a field, the value reached before the last segment being
a scalar; `getStructSubPath` nevertheless succeeds, with `{a: null}`, and
`WriteReferenceDoc` writes an example block for the field.  The scalar-mode
resolver returns an error for the same path. -/
theorem getStructSubPath_scalar_before_last :
    valueAt (.map [("a".toList, .int 5)]) ["a".toList, "b".toList] = none ∧
    getStructSubPath "a.b".toList (.map [("a".toList, .int 5)])
      = .ok (.map [("a".toList, .null)]) ∧
    getValueFromStruct "a.b".toList (.map [("a".toList, .int 5)])
      = .error "only accepts maps; got reflect.Value" ∧
    exampleBlocks (WriteReferenceDoc ⟨sampleJSON, .map [], .map [("a".toList, .int 5)], fun _ => []⟩
      3 ".a.b".toList "b".toList (sampleObject [] []) (sampleLeaf "string"))
      = [.map [("a".toList, .null)]] := by
  decide

/-! ## Claims on the status of a Digdirator client -/

namespace NaisIoV1

/-- C23: after `SetApplicationScopeConsumer(s, o)` the mapping returned by
`GetApplicationScopes()` has exactly one entry, `s` mapped to `o`, whatever
scopes the status held before, and every other field of the status is as it
was. -/
theorem SetApplicationScopeConsumer_single_scope (st : DigdiratorStatus) (s : Str)
    (o : Slice Str) :
    (st.SetApplicationScopeConsumer s o).GetApplicationScopes = some [(s, o)] ∧
    (∀ key, scopeAt (st.SetApplicationScopeConsumer s o).GetApplicationScopes key
      = if key = s then some o else none) ∧
    (st.SetApplicationScopeConsumer s o).SynchronizationState = st.SynchronizationState ∧
    (st.SetApplicationScopeConsumer s o).SynchronizationTime = st.SynchronizationTime ∧
    (st.SetApplicationScopeConsumer s o).SynchronizationHash = st.SynchronizationHash ∧
    (st.SetApplicationScopeConsumer s o).SynchronizationSecretName
      = st.SynchronizationSecretName ∧
    (st.SetApplicationScopeConsumer s o).ClientID = st.ClientID ∧
    (st.SetApplicationScopeConsumer s o).CorrelationID = st.CorrelationID ∧
    (st.SetApplicationScopeConsumer s o).KeyIDs = st.KeyIDs := by
  refine ⟨rfl, ?_, rfl, rfl, rfl, rfl, rfl, rfl, rfl⟩
  intro key
  simp only [DigdiratorStatus.SetApplicationScopeConsumer,
    DigdiratorStatus.GetApplicationScopes, scopeAt, List.find?]
  by_cases h : key = s
  · subst h
    simp
  · have h' : (s == key) = false := by
      simpa using fun e : s = key => h e.symm
    simp [h', h]

end NaisIoV1

/-! ## Claims on null values in subtree mode -/

/-- C21, the failing case: when the traversal reaches a null value, at the last
segment (`a` against `{a: null}`), before it (`a.b` against `{a: null}`) or at
the root (`a` against null), `getStructSubPath` panics in
`reflect.Value.Interface`, called at the last index on the zero value. -/
theorem getStructSubPath_null_panics :
    getStructSubPath "a".toList (.map [("a".toList, .null)])
      = .panic "reflect: call of reflect.Value.Interface on zero Value" ∧
    getStructSubPath "a.b".toList (.map [("a".toList, .null)])
      = .panic "reflect: call of reflect.Value.Interface on zero Value" ∧
    getStructSubPath "a".toList .null
      = .panic "reflect: call of reflect.Value.Interface on zero Value" ∧
    (WriteReferenceDoc ⟨sampleJSON, .map [], .map [("a".toList, .null)], fun _ => []⟩
      2 ".a".toList "a".toList (sampleObject [] []) (sampleLeaf "string")).panic
      = some "reflect: call of reflect.Value.Interface on zero Value" := by
  decide

/-! ## Claims on backticks in a line -/

theorem chain_of_no_backtick (l : Str) (h : '`' ∉ l) :
    List.Chain' (fun a b : Char => ¬ (a = '`' ∧ b = '`')) l := by
  induction l with
  | nil => exact List.chain'_nil
  | cons c cs ih =>
    have hc : c ≠ '`' := fun e => h (by simp [e])
    exact List.Chain'.cons' (ih (fun e => h (by simp [e]))) (fun b _ hcb => hc hcb.1)

theorem chain_placeholder :
    List.Chain' (fun a b : Char => ¬ (a = '`' ∧ b = '`')) "_no value_".toList :=
  chain_of_no_backtick _ (by decide)

theorem replace_head (s : Str) (c : Char)
    (h : (replaceDoubleBackticks s).head? = some c) : c = '_' ∨ s.head? = some c := by
  match s, h with
  | [x], h => exact Or.inr (by simpa [replaceDoubleBackticks] using h)
  | x :: y :: rest, h =>
    by_cases hxy : x = '`' ∧ y = '`'
    · rw [replaceDoubleBackticks, if_pos hxy] at h
      left
      have : some '_' = some c := h
      exact (Option.some.inj this).symm
    · rw [replaceDoubleBackticks, if_neg hxy] at h
      exact Or.inr (by simpa using h)

theorem replace_chain (n : Nat) :
    ∀ s : Str, s.length ≤ n →
      List.Chain' (fun a b : Char => ¬ (a = '`' ∧ b = '`')) (replaceDoubleBackticks s) := by
  induction n with
  | zero =>
    intro s hs
    have : s = [] := List.length_eq_zero.1 (Nat.le_zero.1 hs)
    subst this
    exact List.chain'_nil
  | succ n ih =>
    intro s hs
    match s, hs with
    | [], _ => exact List.chain'_nil
    | [x], _ => exact List.chain'_singleton x
    | x :: y :: rest, hs =>
      by_cases hxy : x = '`' ∧ y = '`'
      · rw [replaceDoubleBackticks, if_pos hxy]
        refine List.Chain'.append chain_placeholder
          (ih rest (by simp only [List.length_cons] at hs; omega)) ?_
        intro a ha b _ hab
        have ha' : a = '_' := by
          have : "_no value_".toList.getLast? = some '_' := by decide
          rw [this] at ha
          simpa using ha.symm
        rw [ha'] at hab
        exact absurd hab.1 (by decide)
      · rw [replaceDoubleBackticks, if_neg hxy]
        refine List.Chain'.cons' (ih (y :: rest) (by simp only [List.length_cons] at hs ⊢; omega)) ?_
        intro b hb hxb
        rcases replace_head (y :: rest) b hb with h | h
        · rw [h] at hxb
          exact absurd hxb.2 (by decide)
        · have : y = b := by simpa using h
          exact hxy ⟨hxb.1, this ▸ hxb.2⟩

theorem replace_run (n : Nat) :
    ∀ post : Str, post.head? ≠ some '`' →
      replaceDoubleBackticks (List.replicate n '`' ++ post) =
        repeatStr "_no value_".toList (n / 2) ++ List.replicate (n % 2) '`' ++
          replaceDoubleBackticks post := by
  induction n using Nat.strong_induction_on with
  | _ n ih =>
    intro post hpost
    match n with
    | 0 => rfl
    | 1 =>
      cases post with
      | nil => rfl
      | cons c r =>
        have hc : c ≠ '`' := fun e => hpost (by simp [e])
        show replaceDoubleBackticks ('`' :: c :: r) = _
        rw [replace_single c r hc]
        rfl
    | k + 2 =>
      have h1 : List.replicate (k + 2) '`' ++ post = '`' :: '`' :: (List.replicate k '`' ++ post) :=
        rfl
      rw [h1, replace_double, ih k (by omega) post hpost]
      have hd : (k + 2) / 2 = k / 2 + 1 := by omega
      have hm : (k + 2) % 2 = k % 2 := by omega
      rw [hd, hm, repeatStr]
      simp only [List.append_assoc]

theorem replace_append (n : Nat) :
    ∀ pre rest : Str, pre.length ≤ n → pre.getLast? ≠ some '`' →
      replaceDoubleBackticks (pre ++ rest) =
        replaceDoubleBackticks pre ++ replaceDoubleBackticks rest := by
  induction n with
  | zero =>
    intro pre rest hlen _
    have : pre = [] := List.length_eq_zero.1 (Nat.le_zero.1 hlen)
    subst this
    rfl
  | succ n ih =>
    intro pre rest hlen hlast
    match pre, hlen, hlast with
    | [], _, _ => rfl
    | [c], _, hlast =>
      have hc : c ≠ '`' := fun e => hlast (by simp [e])
      have := replace_plain [c] rest (by simpa using fun e : '`' = c => hc e.symm)
      simpa [replaceDoubleBackticks] using this
    | x :: y :: p, hlen, hlast =>
      have hlast' : (y :: p).getLast? ≠ some '`' := by
        rwa [List.getLast?_cons_cons] at hlast
      by_cases hxy : x = '`' ∧ y = '`'
      · have hp : p.getLast? ≠ some '`' := by
          cases p with
          | nil => exact absurd (by simp [hxy.2]) hlast'
          | cons z q => rwa [List.getLast?_cons_cons] at hlast'
        have h1 : x :: y :: p ++ rest = x :: y :: (p ++ rest) := rfl
        rw [h1, replaceDoubleBackticks, if_pos hxy, replaceDoubleBackticks, if_pos hxy,
          ih p rest (by simp only [List.length_cons] at hlen; omega) hp, List.append_assoc]
      · have h1 : x :: y :: p ++ rest = x :: y :: (p ++ rest) := rfl
        have h2 : y :: (p ++ rest) = (y :: p) ++ rest := rfl
        rw [h1, replaceDoubleBackticks, if_neg hxy, replaceDoubleBackticks, if_neg hxy, h2,
          ih (y :: p) rest (by simp only [List.length_cons] at hlen ⊢; omega) hlast']
        rfl

/-- C22: the line produced by `linefmt` ends with the line break `<br />` and a
newline, and contains no two adjacent backticks; in the replacement a run of
`n` backticks, between a text that does not end in a backtick and one that does
not start with one, becomes `n / 2` placeholders followed by `n % 2`
backticks. -/
theorem linefmt_no_double_backtick (format : Str) (args : List Str) :
    (∃ body, linefmt format args = body ++ "<br />\n".toList) ∧
    ¬ ("``".toList <:+: linefmt format args) ∧
    (∀ (pre : Str) (n : Nat) (post : Str),
      pre.getLast? ≠ some '`' → post.head? ≠ some '`' →
      replaceDoubleBackticks (pre ++ (List.replicate n '`' ++ post)) =
        replaceDoubleBackticks pre ++
          (repeatStr "_no value_".toList (n / 2) ++ List.replicate (n % 2) '`' ++
            replaceDoubleBackticks post)) := by
  refine ⟨⟨_, rfl⟩, ?_, fun pre n post hpre hpost => ?_⟩
  · intro hinfix
    have hchain : List.Chain' (fun a b : Char => ¬ (a = '`' ∧ b = '`'))
        (linefmt format args) := by
      unfold linefmt
      refine List.Chain'.append (replace_chain _ _ (Nat.le_refl _))
        (chain_of_no_backtick _ (by decide)) ?_
      intro a _ b hb hab
      have : b = '<' := by
        have h : "<br />\n".toList.head? = some '<' := by decide
        rw [h] at hb
        simpa using hb.symm
      rw [this] at hab
      exact absurd hab.2 (by decide)
    have h2 : List.Chain' (fun a b : Char => ¬ (a = '`' ∧ b = '`')) ['`', '`'] :=
      hchain.infix hinfix
    exact List.chain'_pair.1 h2 ⟨rfl, rfl⟩
  · rw [replace_append pre.length pre _ (Nat.le_refl _) hpre, replace_run n post hpost]

/-- An instance of C22: the value made of five backticks, in the line of the type, gives
three placeholders: one for the opening delimiter and the first backtick, two for the
next four, and the closing delimiter stays. -/
theorem linefmt_no_double_backtick_witness :
    replaceDoubleBackticks (List.replicate 5 '`' ++ "x".toList)
      = "_no value__no value_`x".toList ∧
    linefmt "Type: `%s`".toList ["`````".toList]
      = "Type: _no value__no value__no value_`<br />\n".toList :=
  ⟨((linefmt_no_double_backtick [] []).2.2 [] 5 "x".toList (by decide) (by decide)).trans
      (by decide),
   by decide⟩

end Docgen
